import Mathlib

/-!
# Verification of the zudoku playground request pipeline

Shallow embedding of the playground proxy forwarder and the request
composition / HMAC signing pipeline (`OperationListItem.tsx`,
`registerPlaygroundProxyRoute`), together with proofs of the spec claims.

JavaScript strings are modelled as Lean `String`s, JS machine behaviour
(UTF-8 encoding, `encodeURIComponent`, object property order,
HMAC-SHA256 from `crypto.subtle`) is embedded explicitly below.
-/

namespace Zudoku

/-! ## Bytes and 32-bit arithmetic

SHA-256 works on 32-bit words; we model words as `Nat` reduced mod `2^32`
wherever overflow can occur. -/

/-- `2^32`, the word modulus for SHA-256. -/
def M32 : Nat := 4294967296

/-- 32-bit addition (mod `2^32`). -/
def add32 (a b : Nat) : Nat := (a + b) % M32

/-- Right rotation of a 32-bit word by `n` bits. -/
def rotr32 (n x : Nat) : Nat := ((x >>> n) + (x <<< (32 - n))) % M32

/-- Bitwise xor (no overflow for 32-bit inputs). -/
def xor32 (a b : Nat) : Nat := a ^^^ b

/-- UTF-8 encoding of a single code point, as bytes (each `< 256`). -/
def utf8Bytes (c : Nat) : List Nat :=
  if c < 128 then [c]
  else if c < 2048 then [192 + c / 64, 128 + c % 64]
  else if c < 65536 then [224 + c / 4096, 128 + (c / 64) % 64, 128 + c % 64]
  else [240 + c / 262144, 128 + (c / 4096) % 64, 128 + (c / 64) % 64, 128 + c % 64]

/-- UTF-8 encoding of a string (the bytes `TextEncoder.encode` produces). -/
def strUtf8 (s : String) : List Nat :=
  (s.data.map (fun ch => utf8Bytes ch.toNat)).join

/-! ## SHA-256 -/

/-- The 64 SHA-256 round constants. -/
def shaK : List Nat :=
  [1116352408, 1899447441, 3049323471, 3921009573, 961987163, 1508970993,
   2453635748, 2870763221, 3624381080, 310598401, 607225278, 1426881987,
   1925078388, 2162078206, 2614888103, 3248222580, 3835390401, 4022224774,
   264347078, 604807628, 770255983, 1249150122, 1555081692, 1996064986,
   2554220882, 2821834349, 2952996808, 3210313671, 3336571891, 3584528711,
   113926993, 338241895, 666307205, 773529912, 1294757372, 1396182291,
   1695183700, 1986661051, 2177026350, 2456956037, 2730485921, 2820302411,
   3259730800, 3345764771, 3516065817, 3600352804, 4094571909, 275423344,
   430227734, 506948616, 659060556, 883997877, 958139571, 1322822218,
   1537002063, 1747873779, 1955562222, 2024104815, 2227730452, 2361852424,
   2428436474, 2756734187, 3204031479, 3329325298]

/-- SHA-256 initial hash state. -/
def shaH0 : List Nat :=
  [1779033703, 3144134277, 1013904242, 2773480762,
   1359893119, 2600822924, 528734635, 1541459225]

/-- Small sigma 0. -/
def ssig0 (x : Nat) : Nat := xor32 (xor32 (rotr32 7 x) (rotr32 18 x)) (x >>> 3)

/-- Small sigma 1. -/
def ssig1 (x : Nat) : Nat := xor32 (xor32 (rotr32 17 x) (rotr32 19 x)) (x >>> 10)

/-- Big sigma 0. -/
def bsig0 (x : Nat) : Nat := xor32 (xor32 (rotr32 2 x) (rotr32 13 x)) (rotr32 22 x)

/-- Big sigma 1. -/
def bsig1 (x : Nat) : Nat := xor32 (xor32 (rotr32 6 x) (rotr32 11 x)) (rotr32 25 x)

/-- Choice function. -/
def shaCh (x y z : Nat) : Nat := xor32 (x &&& y) ((x ^^^ 4294967295) &&& z)

/-- Majority function. -/
def shaMaj (x y z : Nat) : Nat := xor32 (xor32 (x &&& y) (x &&& z)) (y &&& z)

/-- Four big-endian bytes to a 32-bit word. -/
def word32OfBytes : List Nat → Nat
  | [a, b, c, d] => a * 16777216 + b * 65536 + c * 256 + d
  | _ => 0

/-- Split a byte list into 4-byte groups and read each big-endian. -/
def wordsOfBytes : List Nat → List Nat
  | a :: b :: c :: d :: rest => word32OfBytes [a, b, c, d] :: wordsOfBytes rest
  | _ => []

/-- Extend the 16 message words to the 64-entry SHA-256 schedule.
`acc` is built in reverse (most recent first). -/
def shaExtend : Nat → List Nat → List Nat
  | 0, acc => acc.reverse
  | n + 1, acc =>
      let w2 := acc.getD 1 0
      let w7 := acc.getD 6 0
      let w15 := acc.getD 14 0
      let w16 := acc.getD 15 0
      shaExtend n (add32 (add32 (ssig1 w2) w7) (add32 (ssig0 w15) w16) :: acc)

/-- The full 64-word message schedule of one block. -/
def shaSchedule (block : List Nat) : List Nat :=
  shaExtend 48 (wordsOfBytes block).reverse

/-- One SHA-256 round: transform the 8-word state with constant `k` and
schedule word `w`. -/
def shaRound (st : List Nat) (kw : Nat × Nat) : List Nat :=
  match st with
  | [a, b, c, d, e, f, g, h] =>
      let t1 := add32 (add32 (add32 h (bsig1 e)) (add32 (shaCh e f g) kw.1)) kw.2
      let t2 := add32 (bsig0 a) (shaMaj a b c)
      [add32 t1 t2, a, b, c, add32 d t1, e, f, g]
  | st => st

/-- Compress one 64-byte block into the hash state. -/
def shaCompress (st : List Nat) (block : List Nat) : List Nat :=
  let out := (shaK.zip (shaSchedule block)).foldl shaRound st
  (st.zip out).map (fun p => add32 p.1 p.2)

/-- Split a byte list into 64-byte blocks (`fuel` bounds the recursion; any
`fuel ≥ l.length` yields all blocks, since one step consumes 64 bytes). -/
def chunks64Go : Nat → List Nat → List (List Nat)
  | 0, _ => []
  | _, [] => []
  | fuel + 1, a :: rest => (a :: rest).take 64 :: chunks64Go fuel ((a :: rest).drop 64)

/-- Split a byte list into 64-byte blocks. -/
def chunks64 (l : List Nat) : List (List Nat) := chunks64Go l.length l

/-- Big-endian byte representation of `n` in `k` bytes. -/
def beBytes : Nat → Nat → List Nat
  | 0, _ => []
  | k + 1, n => beBytes k (n / 256) ++ [n % 256]

/-- SHA-256 padding: append `0x80`, zeros, and the 8-byte bit length. -/
def shaPad (msg : List Nat) : List Nat :=
  let len := msg.length
  let zeros := (119 - len % 64) % 64
  msg ++ 128 :: List.replicate zeros 0 ++ beBytes 8 (len * 8)

/-- A 32-bit word as four big-endian bytes. -/
def word32Bytes (w : Nat) : List Nat := beBytes 4 w

/-- SHA-256 of a byte list, as the 32 digest bytes. -/
def sha256 (msg : List Nat) : List Nat :=
  ((chunks64 (shaPad msg)).foldl shaCompress shaH0).map word32Bytes |>.join

/-! ## Hex encoding and HMAC

`bufferToHex` embeds the source helper of the same name: two lowercase hex
digits per byte. -/

/-- One lowercase hex digit. -/
def hexDigit (n : Nat) : Char :=
  (("0123456789abcdef".data).getD n '0')

/-- `bufferToHex`: each byte as two lowercase hex digits. -/
def bufferToHex (bytes : List Nat) : String :=
  String.mk ((bytes.map (fun b => [hexDigit (b / 16), hexDigit (b % 16)])).join)

/-- HMAC-SHA256 digest bytes of `message` keyed by `key` (RFC 2104, the
algorithm `crypto.subtle` implements for `{name: "HMAC", hash: "SHA-256"}`). -/
def hmacSha256 (key msg : List Nat) : List Nat :=
  let k0 := if key.length > 64 then sha256 key else key
  let kPad := k0 ++ List.replicate (64 - k0.length) 0
  let ipad := kPad.map (fun b => xor32 b 0x36)
  let opad := kPad.map (fun b => xor32 b 0x5c)
  sha256 (opad ++ sha256 (ipad ++ msg))

/-- `hmacSha256Hex`: hex of the HMAC-SHA256 of the UTF-8 message, keyed by
the UTF-8 secret — the embedding of the source helper built on
`crypto.subtle.sign("HMAC", ...)`. -/
def hmacSha256Hex (secret message : String) : String :=
  bufferToHex (hmacSha256 (strUtf8 secret) (strUtf8 message))

/-! ## JavaScript string primitives

The fragments of `String.prototype` behaviour the pipeline relies on.
Case mapping is modelled on the ASCII range (the names the code compares
after case mapping — HTTP methods and the three stripped header names —
are ASCII). -/

/-- The WhiteSpace/LineTerminator set of `String.prototype.trim`. -/
def jsWhitespace (c : Char) : Bool :=
  let n := c.toNat
  n == 9 || n == 10 || n == 11 || n == 12 || n == 13 || n == 32 ||
  n == 160 || n == 0x1680 || (0x2000 ≤ n && n ≤ 0x200A) ||
  n == 0x2028 || n == 0x2029 || n == 0x202F || n == 0x205F ||
  n == 0x3000 || n == 0xFEFF

/-- `String.prototype.trim`. -/
def jsTrim (s : String) : String :=
  String.mk (((s.data.dropWhile jsWhitespace).reverse.dropWhile jsWhitespace).reverse)

/-- `String.prototype.toUpperCase` (ASCII fragment). -/
def jsToUpperCase (s : String) : String := String.mk (s.data.map Char.toUpper)

/-- `String.prototype.toLowerCase` (ASCII fragment). -/
def jsToLowerCase (s : String) : String := String.mk (s.data.map Char.toLower)

/-- One uppercase hex digit. -/
def hexDigitU (n : Nat) : Char :=
  (("0123456789ABCDEF".data).getD n '0')

/-- A percent-escaped byte, `%XX` with uppercase hex. -/
def percentByte (b : Nat) : List Char := ['%', hexDigitU (b / 16), hexDigitU (b % 16)]

/-- The characters `encodeURIComponent` leaves unescaped:
`A–Z a–z 0–9 - _ . ! ~ * ' ( )`. -/
def uriUnreserved (c : Char) : Bool :=
  c.isAlpha || c.isDigit ||
  c == '-' || c == '_' || c == '.' || c == '!' || c == '~' || c == '*' ||
  c == '\'' || c == '(' || c == ')'

/-- `encodeURIComponent`: unreserved characters kept, everything else
percent-escaped byte-wise over its UTF-8 encoding. -/
def encodeURIComponent (s : String) : String :=
  String.mk ((s.data.map (fun c =>
    if uriUnreserved c then [c]
    else ((utf8Bytes c.toNat).map percentByte).join)).join)

/-! ## JavaScript values and JSON

`JSValue` models the JS values the pipeline passes around as `unknown`:
the JSON universe plus `undefined`. Numbers are modelled as integers —
all numeric literals the claims exercise are integral, and the model's
JSON parser rejects fractional/exponent literals rather than
approximating float semantics. Arrays and objects are separate mutual
inductives so all recursion below is structural (kernel-computable). -/

mutual

inductive JSValue where
  | undefined
  | null
  | bool (b : Bool)
  | num (n : Int)
  | str (s : String)
  | arr (xs : JSArr)
  | obj (fs : JSObj)

inductive JSArr where
  | nil
  | cons (hd : JSValue) (tl : JSArr)

inductive JSObj where
  | nil
  | cons (key : String) (val : JSValue) (tl : JSObj)

end

/-- A JS object field list as an association list (insertion structure of a
`Record<string, unknown>`; keys unique). -/
def JSRecord := List (String × JSValue)

/-- `JSObj` as an association list. -/
def JSObj.toList : JSObj → List (String × JSValue)
  | .nil => []
  | .cons k v tl => (k, v) :: tl.toList

/-- The opening-brace character, `U+007B`. -/
def lbraceChar : Char := Char.ofNat 123

/-- The closing-brace character, `U+007D`. -/
def rbraceChar : Char := Char.ofNat 125

/-- `"\x7b"` as a string. -/
def lbraceStr : String := String.mk [lbraceChar]

/-- `"\x7d"` as a string. -/
def rbraceStr : String := String.mk [rbraceChar]

/-- JSON string escaping of one character, as `JSON.stringify` emits it. -/
def jsonEscapeChar (c : Char) : List Char :=
  if c = '"' then ['\\', '"']
  else if c = '\\' then ['\\', '\\']
  else if c.toNat == 8 then ['\\', 'b']
  else if c.toNat == 9 then ['\\', 't']
  else if c.toNat == 10 then ['\\', 'n']
  else if c.toNat == 12 then ['\\', 'f']
  else if c.toNat == 13 then ['\\', 'r']
  else if c.toNat < 32 then ['\\', 'u', '0', '0', hexDigit (c.toNat / 16), hexDigit (c.toNat % 16)]
  else [c]

/-- A JSON string literal for `s`. -/
def jsonQuote (s : String) : String :=
  String.mk ('"' :: (s.data.map jsonEscapeChar).join ++ ['"'])

mutual

/-- `JSON.stringify` of a value; `none` for `undefined` (which JS drops in
objects and renders `null` in arrays). -/
def jsonStringifyVal : JSValue → Option String
  | .undefined => none
  | .null => some "null"
  | .bool b => some (if b then "true" else "false")
  | .num n => some (toString n)
  | .str s => some (jsonQuote s)
  | .arr xs => some ("[" ++ String.intercalate "," (jsonStringifyArr xs) ++ "]")
  | .obj fs =>
      some (lbraceStr ++ String.intercalate "," (jsonStringifyObj fs) ++ rbraceStr)

/-- Array elements of `JSON.stringify`; `undefined` becomes `null`. -/
def jsonStringifyArr : JSArr → List String
  | .nil => []
  | .cons x xs => (jsonStringifyVal x).getD "null" :: jsonStringifyArr xs

/-- Object members of `JSON.stringify`; `undefined`-valued fields are
omitted. -/
def jsonStringifyObj : JSObj → List String
  | .nil => []
  | .cons k v fs =>
      match jsonStringifyVal v with
      | none => jsonStringifyObj fs
      | some sv => (jsonQuote k ++ ":" ++ sv) :: jsonStringifyObj fs

end

/-! ## JS object property order

A plain JS object stores one property per key (later assignment overwrites
the value, keeping the key's original creation position), and enumeration
(`Object.entries`, `JSON.stringify`) lists array-index keys first in
ascending numeric order, then the remaining string keys in creation order
(ECMA-262 `OrdinaryOwnPropertyKeys`). -/

/-- Assignment `obj[k] = v` on a keys-unique association list: overwrite in
place if the key exists, else append. -/
def recInsert {α : Type} (r : List (String × α)) (k : String) (v : α) :
    List (String × α) :=
  if r.any (fun p => p.1 = k) then
    r.map (fun p => if p.1 = k then (k, v) else p)
  else r ++ [(k, v)]

/-- Is `s` a canonical array-index property key: a digit string without a
leading zero (except `"0"` itself) whose value is below `2^32 - 1`? -/
def isArrayIndexName (s : String) : Bool :=
  !s.isEmpty && s.data.all Char.isDigit &&
  (s == "0" || s.data.headD '0' != '0') &&
  (s.toNat?.getD 0) < 4294967295

/-- Insertion into a list ascending by the key `f`. -/
def insertByNat {α : Type} (f : α → Nat) (x : α) : List α → List α
  | [] => [x]
  | y :: ys => if f x ≤ f y then x :: y :: ys else y :: insertByNat f x ys

/-- Sort ascending by the key `f` (insertion sort). -/
def sortByNat {α : Type} (f : α → Nat) (l : List α) : List α :=
  l.foldr (insertByNat f) []

/-- `Object.entries` order: array-index keys ascending first, then the
remaining keys in creation order. -/
def jsEntries {α : Type} (l : List (String × α)) : List (String × α) :=
  sortByNat (fun p => p.1.toNat?.getD 0) (l.filter (fun p => isArrayIndexName p.1)) ++
  l.filter (fun p => !isArrayIndexName p.1)

/-- An association list as a `JSObj`. -/
def JSObj.ofList : List (String × JSValue) → JSObj
  | [] => .nil
  | (k, v) :: rest => .cons k v (JSObj.ofList rest)

/-- The property list a JS object has after defining the (possibly
duplicated) members in order: one entry per key, last value, stored in
enumeration order. -/
def normalizeObjFields (members : List (String × JSValue)) : JSObj :=
  JSObj.ofList (jsEntries (members.foldl (fun r kv => recInsert r kv.1 kv.2) []))

/-! ## JSON parsing (`JSON.parse`)

Fuel-based recursive-descent parser for the JSON grammar; objects are
normalized into JS property form as they are built. Modelling
restrictions: numbers must be integral, and lone UTF-16 surrogates
(representable in JS strings but not in Lean `String`) are rejected. -/

/-- JSON whitespace (space, tab, line feed, carriage return). -/
def jsonWs (c : Char) : Bool :=
  c == ' ' || c == '\t' || c == '\n' || c == '\r'

/-- The value of one hex digit. -/
def hexCharVal (c : Char) : Option Nat :=
  if '0' ≤ c ∧ c ≤ '9' then some (c.toNat - 48)
  else if 'a' ≤ c ∧ c ≤ 'f' then some (c.toNat - 87)
  else if 'A' ≤ c ∧ c ≤ 'F' then some (c.toNat - 55)
  else none

/-- One step of the JSON string-literal lexer: handle the next character
(or escape sequence) of `cs`, recursing through `rec`. -/
def jsonStringGoStep (rec : List Char → List Char → Option (String × List Char))
    (acc : List Char) (cs : List Char) : Option (String × List Char) :=
  match cs with
  | [] => none
  | '"' :: rest => some (String.mk acc.reverse, rest)
  | '\\' :: esc =>
    match esc with
    | '"' :: r => rec ('"' :: acc) r
    | '\\' :: r => rec ('\\' :: acc) r
    | '/' :: r => rec ('/' :: acc) r
    | 'b' :: r => rec (Char.ofNat 8 :: acc) r
    | 'f' :: r => rec (Char.ofNat 12 :: acc) r
    | 'n' :: r => rec ('\n' :: acc) r
    | 'r' :: r => rec (Char.ofNat 13 :: acc) r
    | 't' :: r => rec ('\t' :: acc) r
    | 'u' :: h1 :: h2 :: h3 :: h4 :: r =>
      match hexCharVal h1, hexCharVal h2, hexCharVal h3, hexCharVal h4 with
      | some a, some b, some c, some d =>
        let n := a * 4096 + b * 256 + c * 16 + d
        if n < 0xD800 ∨ 0xE000 ≤ n then rec (Char.ofNat n :: acc) r
        else if n < 0xDC00 then
          match r with
          | '\\' :: 'u' :: g1 :: g2 :: g3 :: g4 :: r2 =>
            match hexCharVal g1, hexCharVal g2, hexCharVal g3, hexCharVal g4 with
            | some a2, some b2, some c2, some d2 =>
              let m := a2 * 4096 + b2 * 256 + c2 * 16 + d2
              if 0xDC00 ≤ m ∧ m < 0xE000 then
                rec (Char.ofNat (0x10000 + (n - 0xD800) * 1024 + (m - 0xDC00)) :: acc) r2
              else none
            | _, _, _, _ => none
          | _ => none
        else none
      | _, _, _, _ => none
    | _ => none
  | c :: rest => if c.toNat < 32 then none else rec (c :: acc) rest

/-- Parse the remainder of a JSON string literal (the opening quote
already consumed), accumulating characters in reverse. `fuel` bounds the
recursion; every step consumes at least one character, so any
`fuel > cs.length` completes the parse. -/
def jsonStringGo : Nat → List Char → List Char → Option (String × List Char)
  | 0, _, _ => none
  | fuel + 1, acc, cs => jsonStringGoStep (jsonStringGo fuel) acc cs

/-- Parse a JSON integer literal (model restriction: fraction/exponent
parts are rejected rather than modelled as floats). -/
def jsonParseNumber (cs : List Char) : Option (Int × List Char) :=
  let cs1 := if cs.head? = some '-' then cs.tail else cs
  let ds := cs1.takeWhile Char.isDigit
  let rest := cs1.dropWhile Char.isDigit
  if ds.isEmpty then none
  else if ds.length > 1 ∧ ds.headD '0' = '0' then none
  else
    match rest with
    | '.' :: _ => none
    | 'e' :: _ => none
    | 'E' :: _ => none
    | _ =>
      let v : Int := Int.ofNat (ds.foldl (fun a c => a * 10 + (c.toNat - 48)) 0)
      some (if cs.head? = some '-' then -v else v, rest)

/-- One step of the JSON value parser, recursing through the member and
element parsers. -/
def jsonParseValStep (recMembers : List Char → Option (List (String × JSValue) × List Char))
    (recElems : List Char → Option (JSArr × List Char)) (cs : List Char) :
    Option (JSValue × List Char) :=
  match cs.dropWhile jsonWs with
  | [] => none
  | c :: rest =>
    if c = '"' then
      match jsonStringGo (rest.length + 1) [] rest with
      | some (s, r) => some (.str s, r)
      | none => none
    else if c = lbraceChar then
      match rest.dropWhile jsonWs with
      | c2 :: r2 =>
        if c2 = rbraceChar then some (.obj .nil, r2)
        else
          match recMembers rest with
          | some (ms, r3) => some (.obj (normalizeObjFields ms), r3)
          | none => none
      | [] => none
    else if c = '[' then
      match rest.dropWhile jsonWs with
      | ']' :: r2 => some (.arr .nil, r2)
      | _ :: _ =>
        match recElems rest with
        | some (xs, r3) => some (.arr xs, r3)
        | none => none
      | [] => none
    else
      match c :: rest with
      | 't' :: 'r' :: 'u' :: 'e' :: r => some (.bool true, r)
      | 'f' :: 'a' :: 'l' :: 's' :: 'e' :: r => some (.bool false, r)
      | 'n' :: 'u' :: 'l' :: 'l' :: r => some (.null, r)
      | cs2 =>
        match jsonParseNumber cs2 with
        | some (n, r) => some (.num n, r)
        | none => none

/-- One step of the object-member parser: `"key": value`, then a comma
and more members or the closing brace. -/
def jsonParseMembersStep (recVal : List Char → Option (JSValue × List Char))
    (recMembers : List Char → Option (List (String × JSValue) × List Char))
    (cs : List Char) : Option (List (String × JSValue) × List Char) :=
  match cs.dropWhile jsonWs with
  | '"' :: rest =>
    match jsonStringGo (rest.length + 1) [] rest with
    | none => none
    | some (k, r1) =>
      match r1.dropWhile jsonWs with
      | ':' :: r2 =>
        match recVal r2 with
        | none => none
        | some (v, r3) =>
          match r3.dropWhile jsonWs with
          | ',' :: r4 =>
            match recMembers r4 with
            | some (ms, r5) => some ((k, v) :: ms, r5)
            | none => none
          | c :: r4 =>
            if c = rbraceChar then some ([(k, v)], r4) else none
          | [] => none
      | _ => none
  | _ => none

/-- One step of the array-element parser: a value, then a comma and more
elements or the closing bracket. -/
def jsonParseElemsStep (recVal : List Char → Option (JSValue × List Char))
    (recElems : List Char → Option (JSArr × List Char)) (cs : List Char) :
    Option (JSArr × List Char) :=
  match recVal cs with
  | none => none
  | some (v, r1) =>
    match r1.dropWhile jsonWs with
    | ',' :: r2 =>
      match recElems r2 with
      | some (xs, r3) => some (.cons v xs, r3)
      | none => none
    | ']' :: r2 => some (.cons v .nil, r2)
    | _ => none

mutual

/-- Parse one JSON value (leading whitespace allowed). -/
def jsonParseVal : Nat → List Char → Option (JSValue × List Char)
  | 0, _ => none
  | fuel + 1, cs => jsonParseValStep (jsonParseMembers fuel) (jsonParseElems fuel) cs

/-- Parse one or more `"key": value` members followed by the closing
brace, returning raw members in source order. -/
def jsonParseMembers : Nat → List Char → Option (List (String × JSValue) × List Char)
  | 0, _ => none
  | fuel + 1, cs => jsonParseMembersStep (jsonParseVal fuel) (jsonParseMembers fuel) cs

/-- Parse one or more array elements followed by the closing bracket. -/
def jsonParseElems : Nat → List Char → Option (JSArr × List Char)
  | 0, _ => none
  | fuel + 1, cs => jsonParseElemsStep (jsonParseVal fuel) (jsonParseElems fuel) cs

end

/-- `JSON.parse`: parse a complete JSON text (`none` models a thrown
`SyntaxError`). -/
def jsonParse (s : String) : Option JSValue :=
  match jsonParseVal (4 * (s.length + 1)) s.data with
  | some (v, rest) => if (rest.dropWhile jsonWs).isEmpty then some v else none
  | none => none

/-! ## Request composer and signature engine
(`OperationListItem.tsx`) -/

/-- Is a value `null` or `undefined`? -/
def JSValue.isNullish : JSValue → Bool
  | .null => true
  | .undefined => true
  | _ => false

/-- `serializeValue`: `null`/`undefined` become the empty string, arrays
and objects their `JSON.stringify` text, other primitives their
`String(...)` coercion. -/
def serializeValue : JSValue → String
  | .null => ""
  | .undefined => ""
  | .arr xs => (jsonStringifyVal (.arr xs)).getD "undefined"
  | .obj fs => (jsonStringifyVal (.obj fs)).getD "undefined"
  | .bool b => if b then "true" else "false"
  | .num n => toString n
  | .str s => s

/-- `buildQueryString`: for each entry of the record (in `Object.entries`
order) whose value is neither `null` nor `undefined`, emit
`key=encodeURIComponent(serializeValue(value))`, and join with `&`. -/
def buildQueryString (params : List (String × JSValue)) : String :=
  let pairs := (jsEntries params).filterMap (fun p =>
    if p.2.isNullish then none
    else some (p.1 ++ "=" ++ encodeURIComponent (serializeValue p.2)))
  String.intercalate "&" pairs

/-- A `{name, value, active}` pair as the playground form stores
query params and headers (`value` is a string there). -/
structure Param where
  name : String
  value : String
  active : Bool
  «enum» : List String := []
deriving DecidableEq, Repr

/-- A `{name, value, active?}` pair at the `unknown` value type
`toRecordFromActivePairs` is typed against. -/
structure ActivePair where
  name : String
  value : JSValue
  active : Bool

/-- A form pair as an `ActivePair` (string values). -/
def Param.toActivePair (p : Param) : ActivePair :=
  ⟨p.name, .str p.value, p.active⟩

/-- One step of `toRecordFromActivePairs`: skip empty names
(`if (!p.name) continue`) and inactive entries, assign the rest. -/
def activePairsStep (out : List (String × JSValue)) (p : ActivePair) :
    List (String × JSValue) :=
  if p.name = "" then out
  else if p.active = false then out
  else recInsert out p.name p.value

/-- `toRecordFromActivePairs`: build a record from the pairs in order,
skipping empty names and inactive entries; assignment follows JS object
semantics (duplicate names keep the first position, last value). -/
def toRecordFromActivePairs (pairs : List ActivePair) : List (String × JSValue) :=
  pairs.foldl activePairsStep []

/-- `String.prototype.startsWith` (code-unit prefix test). -/
def jsStartsWith (s pre : String) : Bool := pre.data.isPrefixOf s.data

/-- `String.prototype.endsWith` (code-unit suffix test). -/
def jsEndsWith (s suf : String) : Bool := suf.data.isSuffixOf s.data

/-- `tryParseJsonObject`: trim; require nonempty text enclosed in braces;
`JSON.parse` it; return the fields iff the result is an object (not an
array, not a primitive, not `null`). -/
def tryParseJsonObject (text : String) : Option (List (String × JSValue)) :=
  let t := jsTrim text
  if t = "" then none
  else if ¬ (jsStartsWith t lbraceStr ∧ jsEndsWith t rbraceStr) then none
  else
    match jsonParse t with
    | some (.obj fs) => some fs.toList
    | _ => none

/-- `upsertActiveParam`: replace the first entry whose name matches with a
fresh object carrying the new value and `active := true` (keeping name,
position and enum), or append a fresh active entry when none matches. -/
def upsertActiveParam (params : List Param) (name value : String) : List Param :=
  match params.findIdx? (fun p => p.name = name) with
  | some idx =>
    match params[idx]? with
    | some p => params.set idx { p with value := value, active := true }
    | none => params
  | none => params ++ [{ name := name, value := value, active := true, «enum» := [] }]

/-- `getHeaderValue`: find the first header with the given (exact) name;
empty result if it is absent or inactive, else its trimmed value. -/
def getHeaderValue (headers : List Param) (headerName : String) : String :=
  match headers.find? (fun x => x.name = headerName) with
  | none => ""
  | some h => if ¬ h.active then "" else jsTrim h.value

/-- The body mode of the playground form. -/
inductive BodyMode where
  | text
  | file
  | multipart
deriving DecidableEq, Repr

/-- The slice of `PlaygroundForm` the submission pipeline reads: body
text and mode, whether a file is selected, query params, headers, and the
ephemeral API secret. -/
structure PlaygroundForm where
  apiSecret : Option String
  body : String
  bodyMode : Option BodyMode
  hasFile : Bool
  queryParams : List Param
  headers : List Param

/-- What the signing block of `mutationFn` produces: the updated
query-param list, the canonical string fed to the HMAC, and the hex
signature. -/
structure SignOutcome where
  queryParams : List Param
  toSign : String
  signature : String
deriving DecidableEq, Repr

/-- The `bodyParams` of `mutationFn`'s signing block:
`signedData.bodyMode === "text" ? tryParseJsonObject(signedData.body) :
undefined`. -/
def signBodyParams (form : PlaygroundForm) : Option (List (String × JSValue)) :=
  if form.bodyMode = some .text then tryParseJsonObject form.body else none

/-- The `bodyParamsString` of the signing block:
`bodyParams ? buildQueryString(bodyParams) : ""`. -/
def signBodyParamsString (form : PlaygroundForm) : String :=
  match signBodyParams form with
  | some b => buildQueryString b
  | none => ""

/-- The `queryParamsString` of the signing block, given the query params
after the `timestamp` upsert: build the record of active pairs with any
`signature` entry filtered out, and serialize it. -/
def signQueryParamsString (qps : List Param) : String :=
  buildQueryString (toRecordFromActivePairs
    ((qps.filter (fun p => p.name ≠ "signature")).map Param.toActivePair))

/-- The `toSign` string of the signing block: the query component and the
body component, empty components dropped (`.filter(Boolean)`), joined
with `&`. -/
def signToSign (timestampMs : String) (form : PlaygroundForm) : String :=
  let qps := upsertActiveParam form.queryParams "timestamp" timestampMs
  String.intercalate "&"
    (([signQueryParamsString qps, signBodyParamsString form]).filter (fun s => s ≠ ""))

/-- The signing block of `queryMutation.mutationFn` (run when `isSigned`):
check the API secret and API-key header, upsert a fresh `timestamp`,
canonicalize the active query params (sans `signature`) and, for a
plain-JSON-object text body, the body's top level; HMAC-sign the joined
string and upsert the `signature` param. `.error` models a thrown
`Error` (which aborts the submission before the proxy fetch). -/
def signSubmission (apiKeyHeaderName timestampMs : String) (form : PlaygroundForm) :
    Except String SignOutcome :=
  let apiSecret := jsTrim (form.apiSecret.getD "")
  if apiSecret = "" then
    .error "API Secret is required for signed endpoints."
  else
    let apiKey := getHeaderValue form.headers apiKeyHeaderName
    if apiKey = "" then
      .error ("Missing " ++ apiKeyHeaderName ++
        " header. Enable it in Headers and provide your API key.")
    else
      let qps := upsertActiveParam form.queryParams "timestamp" timestampMs
      let toSign := signToSign timestampMs form
      let signature := hmacSha256Hex apiSecret toSign
      .ok ⟨upsertActiveParam qps "signature" signature, toSign, signature⟩

/-- The body value `mutationFn` selects from the form (the `switch` on
`bodyMode`): a file when one is chosen in `file` mode, a `FormData` in
`multipart` mode, else the body text — with JS falsiness turning an
absent file or empty text into `undefined`. -/
inductive SendBody where
  | noBody
  | text (s : String)
  | file
  | formData
deriving DecidableEq, Repr

/-- The `switch (signedData.bodyMode)` of `mutationFn`. -/
def selectedBody (form : PlaygroundForm) : SendBody :=
  match form.bodyMode with
  | some .file => if form.hasFile then .file else .noBody
  | some .multipart => .formData
  | _ => if form.body ≠ "" then .text form.body else .noBody

/-- `requestBodyForSend`: no body at all for `GET`/`HEAD`, else the
selected body. -/
def requestBodyForSend (method : String) (form : PlaygroundForm) : SendBody :=
  if jsToUpperCase method = "GET" ∨ jsToUpperCase method = "HEAD" then .noBody
  else selectedBody form

/-- The `body` field of the proxy envelope: the request body when it is a
string, `undefined` for files and form data (and when there is no body). -/
def proxyEnvelopeBody (method : String) (form : PlaygroundForm) : Option String :=
  match requestBodyForSend method form with
  | .text s => some s
  | _ => none

/-! ## Proxy forwarder (`registerPlaygroundProxyRoute`) -/

/-- The result of `new URL(url)` as far as the forwarder reads it: the
scheme including its trailing colon (`u.protocol`). -/
structure JSUrl where
  protocol : String
deriving DecidableEq, Repr

/-- The JSON payload of a `POST` to the proxy route (fields may be
absent). -/
structure ProxyPayload where
  url : Option String
  method : Option String
  headers : Option (List (String × String))
  body : Option String

/-- What the forwarder does with a payload: an early plain-text rejection,
or the upstream `fetch` it performs. -/
inductive ProxyOutcome where
  | reject (status : Nat) (message : String)
  | forward (method : String) (url : String) (headers : List (String × String))
      (body : Option String)
deriving DecidableEq, Repr

/-- Is this optional string JS-falsy (absent or empty)? -/
def jsFalsyStr : Option String → Bool
  | none => true
  | some s => s = ""

/-- One step of the forwarder's header loop: skip empty names and
(case-insensitively) `host`, `connection`, `content-length`; assign the
rest into the accumulated object keyed by the original name. -/
def forwardHeadersStep (obj : List (String × String)) (kv : String × String) :
    List (String × String) :=
  if kv.1 = "" then obj
  else if jsToLowerCase kv.1 = "host" ∨ jsToLowerCase kv.1 = "connection" ∨
      jsToLowerCase kv.1 = "content-length" then obj
  else recInsert obj kv.1 kv.2

/-- The forwarded header record (`headersObj` of the proxy `POST`
handler). -/
def buildForwardHeaders (headers : List (String × String)) : List (String × String) :=
  headers.foldl forwardHeadersStep []

/-- The `POST` handler of `registerPlaygroundProxyRoute`, up to the
upstream `fetch`: validation (payload shape, URL parsing, https-only),
header stripping, and body suppression for `GET`/`HEAD`. `parseUrl`
abstracts the platform's WHATWG `new URL`. -/
def handleProxyPost (parseUrl : String → Option JSUrl) (payload : ProxyPayload) :
    ProxyOutcome :=
  if jsFalsyStr payload.url ∨ jsFalsyStr payload.method then
    .reject 400 "Invalid payload. Expected \x7b method, url, headers?, body? \x7d"
  else
    let method := jsToUpperCase (payload.method.getD "")
    let url := payload.url.getD ""
    match parseUrl url with
    | none => .reject 400 "Invalid URL"
    | some u =>
      if u.protocol ≠ "https:" then .reject 400 "Only https URLs are allowed"
      else
        .forward method url (buildForwardHeaders (payload.headers.getD []))
          (if method = "GET" ∨ method = "HEAD" then none else payload.body)

/-! ## Heap-explicit view of the upserts

`mutationFn` copies the form's arrays shallowly (`[...data.queryParams]`)
and then mutates only the copies. To state that the original array's
entries are untouched we make the JS heap explicit: an arena of allocated
`Param` objects, and arrays as lists of arena indices. `params[idx] = {...}`
allocates a fresh object and repoints the copy's slot; `push` appends a
fresh object — the arena is only ever extended. -/

/-- Dereference a list of object references against the arena. -/
def derefParams (store : List Param) (refs : List Nat) : List (Option Param) :=
  refs.map (fun r => store[r]?)

/-- `upsertActiveParam` acting on an array of references into the arena:
find the first reference whose object has the name; replace that slot with
a reference to a freshly allocated updated object, or push a reference to
a freshly allocated new entry. Returns the extended arena and the updated
reference array. -/
def upsertActiveParamST (store : List Param) (refs : List Nat) (name value : String) :
    List Param × List Nat :=
  match refs.findIdx? (fun r =>
      match store[r]? with
      | some p => p.name = name
      | none => false) with
  | some idx =>
    match refs[idx]? with
    | some r =>
      match store[r]? with
      | some p =>
        (store ++ [{ p with value := value, active := true }], refs.set idx store.length)
      | none => (store, refs)
    | none => (store, refs)
  | none =>
    (store ++ [{ name := name, value := value, active := true, «enum» := [] }],
      refs ++ [store.length])

/-! ## Spec-side formulations

Definitions following the wording of the spec claims, to be compared
with the embedded code. -/

/-- Is this value `undefined`? -/
def JSValue.isUndefined : JSValue → Bool
  | .undefined => true
  | _ => false

/-- A name the forwarder strips (case-insensitively):
`host`, `connection` or `content-length`. -/
def isStrippedName (n : String) : Bool :=
  jsToLowerCase n == "host" || jsToLowerCase n == "connection" ||
  jsToLowerCase n == "content-length"

/-- Lookup in a record (first entry with the key). -/
def recLookup {α : Type} (r : List (String × α)) (k : String) : Option α :=
  (r.find? (fun p => p.1 = k)).map (fun p => p.2)

/-- The value of the last occurrence of a header name in a supplied list. -/
def lastValueOf (hs : List (String × String)) (k : String) : Option String :=
  ((hs.filter (fun p => p.1 = k)).getLast?).map (fun p => p.2)

/-- Claim C5 as worded: serialize exactly the active, non-`undefined`
entries, as `name=percent-encode(serialize(value))`, joined with `&` in
the original sequence order. -/
def specC5 (ps : List ActivePair) : String :=
  String.intercalate "&"
    ((ps.filter (fun p => p.active && !p.value.isUndefined)).map
      (fun p => p.name ++ "=" ++ encodeURIComponent (serializeValue p.value)))

/-- The last value among active occurrences of a name. -/
def lastActiveValue (ps : List ActivePair) (k : String) : Option JSValue :=
  ((ps.filter (fun p => p.active && p.name == k)).getLast?).map (fun p => p.value)

/-- First occurrences, in order. -/
def dedupFirstGo (seen : List String) : List String → List String
  | [] => []
  | x :: xs => if seen.contains x then dedupFirstGo seen xs
      else x :: dedupFirstGo (x :: seen) xs

/-- The distinct names of active, nonempty-named entries, in first
occurrence order. -/
def activeKeys (ps : List ActivePair) : List String :=
  dedupFirstGo [] ((ps.filter (fun p => p.active && p.name != "")).map (fun p => p.name))

/-- JS property enumeration order on a key list: array-index names
ascending first, then the rest in the given order. -/
def jsKeyOrder (ks : List String) : List String :=
  sortByNat (fun k => k.toNat?.getD 0) (ks.filter isArrayIndexName) ++
  ks.filter (fun k => !isArrayIndexName k)

/-- Amended claim C5: one pair per distinct active nonempty name whose
last active value is neither `null` nor `undefined`, carrying that last
value, enumerated index-names-first then first-occurrence order. -/
def specC5Amended (ps : List ActivePair) : String :=
  String.intercalate "&"
    ((jsKeyOrder (activeKeys ps)).filterMap (fun k =>
      match lastActiveValue ps k with
      | some v => if v.isNullish then none
          else some (k ++ "=" ++ encodeURIComponent (serializeValue v))
      | none => none))

/-- The body component as the spec words it: present iff the body mode is
`text` and the trimmed body text `JSON.parse`s to an object; then its
top-level fields serialized with the same joiner. -/
def specBodyComponent (form : PlaygroundForm) : String :=
  match form.bodyMode, jsonParse (jsTrim form.body) with
  | some .text, some (.obj fs) => buildQueryString fs.toList
  | _, _ => ""

/-- Claim C1's canonical string as worded: all currently active query
params except `signature` entries, as `name=percent-encode(value)` pairs
in sequence order with the fresh `timestamp` appended last, joined `&`
with the body component, empty components omitted. -/
def specCanonicalC1 (ts : String) (form : PlaygroundForm) : String :=
  let queryPart := String.intercalate "&"
    (((form.queryParams.filter (fun p => p.active && p.name != "signature")).map
      (fun p => p.name ++ "=" ++ encodeURIComponent p.value)) ++
      ["timestamp=" ++ encodeURIComponent ts])
  String.intercalate "&" (([queryPart, specBodyComponent form]).filter (fun s => s ≠ ""))

/-- Amended claim C1's canonical string: the query params after the
`timestamp` upsert (replace the first existing `timestamp` entry in place
and re-activate it, else append it last), `signature` entries excluded,
serialized per the amended C5 record semantics; joined `&` with the body
component, empty components omitted. -/
def specCanonicalC1Amended (ts : String) (form : PlaygroundForm) : String :=
  let qps := upsertActiveParam form.queryParams "timestamp" ts
  String.intercalate "&"
    (([specC5Amended ((qps.filter (fun p => p.name ≠ "signature")).map Param.toActivePair),
      specBodyComponent form]).filter (fun s => s ≠ ""))

/-- The record `toRecordFromActivePairs` ought to produce, stated
declaratively: one entry per distinct active nonempty name (first
occurrence order), valued at the last active occurrence. -/
def specRecordOf (ps : List ActivePair) : List (String × JSValue) :=
  (activeKeys ps).filterMap (fun k => (lastActiveValue ps k).map (fun v => (k, v)))

/-- The error of an `Except`, if any (for decidable statements about
thrown submissions). -/
def exceptErr {ε α : Type} : Except ε α → Option ε
  | .error e => some e
  | .ok _ => none

/-- A tiny stand-in for the platform URL parser, for concrete witnesses. -/
def toyParseUrl : String → Option JSUrl := fun s =>
  if s = "https://api.example.com/orders" then some ⟨"https:"⟩
  else if s = "http://insecure.example.com" then some ⟨"http:"⟩
  else none

end Zudoku

namespace Zudoku

/-! ## Shared lemmas -/

/-- Upserting past a non-matching head passes over it. -/
theorem upsertActiveParam_cons_ne (p : Param) (l : List Param) (nm v : String)
    (h : ¬ p.name = nm) :
    upsertActiveParam (p :: l) nm v = p :: upsertActiveParam l nm v := by
  unfold upsertActiveParam
  rw [List.findIdx?_cons, if_neg (by simpa using h), List.findIdx?_succ]
  cases hfi : List.findIdx? (fun q => q.name = nm) l with
  | none => simp
  | some i =>
    simp only [Option.map_some]
    cases hget : l[i]? with
    | none => simp [hget]
    | some q => simp [hget, List.set_cons_succ]

/-- Upserting at a matching head replaces it in place. -/
theorem upsertActiveParam_cons_eq (p : Param) (l : List Param) (nm v : String)
    (h : p.name = nm) :
    upsertActiveParam (p :: l) nm v = { p with value := v, active := true } :: l := by
  unfold upsertActiveParam
  rw [List.findIdx?_cons, if_pos (by simpa using h)]
  simp

/-- Upserting into a list with no matching name appends a fresh active
entry. -/
theorem upsertActiveParam_append (l : List Param) (nm v : String)
    (h : ∀ p ∈ l, ¬ p.name = nm) :
    upsertActiveParam l nm v =
      l ++ [{ name := nm, value := v, active := true, «enum» := [] }] := by
  induction l with
  | nil => rfl
  | cons p l ih =>
    rw [upsertActiveParam_cons_ne p l nm v (h p (by simp)),
      ih (fun q hq => h q (by simp [hq]))]
    simp

end Zudoku

namespace Zudoku

/-! ## Claim C2 — forwarder validation order -/

/-- **C2** — For every proxy request whose `url` has a scheme other than
`https`, the forwarder responds 400 "Only https URLs are allowed" and
performs no upstream call; missing `url` or `method` yields 400
"Invalid payload..." and an unparseable `url` yields 400 "Invalid URL",
checked in that order before the scheme check. -/
theorem claim_C2 (parseUrl : String → Option JSUrl) (payload : ProxyPayload) :
    ((jsFalsyStr payload.url = true ∨ jsFalsyStr payload.method = true) →
      handleProxyPost parseUrl payload =
        .reject 400 "Invalid payload. Expected \x7b method, url, headers?, body? \x7d") ∧
    (¬ (jsFalsyStr payload.url = true ∨ jsFalsyStr payload.method = true) →
      parseUrl (payload.url.getD "") = none →
      handleProxyPost parseUrl payload = .reject 400 "Invalid URL") ∧
    (∀ u, ¬ (jsFalsyStr payload.url = true ∨ jsFalsyStr payload.method = true) →
      parseUrl (payload.url.getD "") = some u → u.protocol ≠ "https:" →
      handleProxyPost parseUrl payload = .reject 400 "Only https URLs are allowed" ∧
      (∀ m url hs b, handleProxyPost parseUrl payload ≠ .forward m url hs b)) := by
  simp only [handleProxyPost]
  refine ⟨fun h => by rw [if_pos h], fun h hp => by rw [if_neg h]; rw [hp],
    fun u h hp hproto => ?_⟩
  rw [if_neg h]
  rw [hp]
  simp only [if_pos hproto]
  exact ⟨trivial, fun m url hs b => by simp⟩

/-- Witness for C2: the three rejections at concrete payloads. -/
theorem claim_C2_witness :
    handleProxyPost toyParseUrl ⟨none, some "GET", none, none⟩ =
      .reject 400 "Invalid payload. Expected \x7b method, url, headers?, body? \x7d" ∧
    handleProxyPost toyParseUrl ⟨some "not a url", some "GET", none, none⟩ =
      .reject 400 "Invalid URL" ∧
    handleProxyPost toyParseUrl ⟨some "http://insecure.example.com", some "GET", none, none⟩ =
      .reject 400 "Only https URLs are allowed" :=
  ⟨(claim_C2 toyParseUrl _).1 (Or.inl (by decide)),
   (claim_C2 toyParseUrl _).2.1 (by decide) (by decide),
   ((claim_C2 toyParseUrl _).2.2 ⟨"http:"⟩ (by decide) (by decide) (by decide)).1⟩

/-! ## Claim C8 — no body for GET/HEAD -/

/-- **C8** — For every request whose (uppercased) method is GET or HEAD,
no body is forwarded: the orchestrator selects no request body and puts
`body: undefined` in the proxy envelope, and the forwarder passes no
fetch body for those methods even when the envelope contains one. -/
theorem claim_C8 (method : String) (form : PlaygroundForm)
    (parseUrl : String → Option JSUrl) (payload : ProxyPayload)
    (hm : jsToUpperCase method = "GET" ∨ jsToUpperCase method = "HEAD") :
    proxyEnvelopeBody method form = none ∧
    requestBodyForSend method form = .noBody ∧
    (∀ m url hs b, handleProxyPost parseUrl payload = .forward m url hs b →
      (m = "GET" ∨ m = "HEAD") → b = none) := by
  have h2 : requestBodyForSend method form = .noBody := by
    unfold requestBodyForSend
    rw [if_pos hm]
  refine ⟨by unfold proxyEnvelopeBody; rw [h2], h2, ?_⟩
  intro m url hs b hfwd hm2
  simp only [handleProxyPost] at hfwd
  split at hfwd
  · exact absurd hfwd (by simp)
  · split at hfwd
    · exact absurd hfwd (by simp)
    · split at hfwd
      · exact absurd hfwd (by simp)
      · rw [ProxyOutcome.forward.injEq] at hfwd
        obtain ⟨hm3, -, -, hb⟩ := hfwd
        rw [← hm3] at hm2
        rw [← hb, if_pos hm2]

/-- Witness for C8 at a lowercase method with a nonempty text body. -/
theorem claim_C8_witness :
    (jsToUpperCase "get" = "GET" ∨ jsToUpperCase "get" = "HEAD") ∧
    proxyEnvelopeBody "get"
      ⟨none, "ignored body", some .text, false, [], []⟩ = none :=
  ⟨Or.inl (by decide),
   (claim_C8 "get" ⟨none, "ignored body", some .text, false, [], []⟩
     toyParseUrl ⟨none, none, none, none⟩ (Or.inl (by decide))).1⟩

end Zudoku

namespace Zudoku

/-! ## Claim C6 — signature upsert and duplicates -/

/-- **C6 counterexample** — with two pre-existing `signature` entries the
upsert replaces the first and leaves the second, so two entries remain,
not exactly one. -/
theorem claim_C6_counterexample :
    ¬ ((upsertActiveParam
        [⟨"signature", "old1", true, []⟩, ⟨"signature", "old2", true, []⟩]
        "signature" "fresh").countP (fun p => p.name == "signature") = 1) := by
  decide

/-- **C6 (amended)** — upserting `signature` never adds a second entry:
afterwards the number of `signature` entries is `max 1` (their previous
number) — exactly one when at most one existed — and the first
`signature` entry carries the new value and is active. -/
theorem claim_C6_amended (ps : List Param) (sig : String) :
    (upsertActiveParam ps "signature" sig).countP (fun p => p.name == "signature") =
      max 1 (ps.countP (fun p => p.name == "signature")) ∧
    ((upsertActiveParam ps "signature" sig).find? (fun p => p.name == "signature")).map
      (fun p => (p.value, p.active)) = some (sig, true) := by
  induction ps with
  | nil =>
    refine ⟨by simp [upsertActiveParam], by simp [upsertActiveParam]⟩
  | cons p l ih =>
    by_cases h : p.name = "signature"
    · rw [upsertActiveParam_cons_eq p l _ _ h]
      constructor
      · simp only [List.countP_cons, h]
        simp
      · rw [List.find?_cons_of_pos _ (by simpa using h)]
        rfl
    · rw [upsertActiveParam_cons_ne p l _ _ h]
      obtain ⟨ih1, ih2⟩ := ih
      constructor
      · simp only [List.countP_cons, ih1, beq_iff_eq, h]
        simp
      · rw [List.find?_cons_of_neg _ (by simpa using h), ih2]

/-! ## Claim C10 — upsert replaces in place -/

/-- **C10** — `upsertActiveParam` replaces the first matching entry in
place: the result is the same sequence with that position overwritten by
a fresh entry keeping the original name and enum, the new value, and
`active` forced to true (even if it was inactive); only when no entry
matches is a fresh active entry appended at the end. -/
theorem claim_C10 (ps : List Param) (nm v : String) :
    (∀ idx p, (∀ j q, j < idx → ps[j]? = some q → ¬ q.name = nm) →
      ps[idx]? = some p → p.name = nm →
      upsertActiveParam ps nm v =
        ps.set idx { name := p.name, value := v, active := true, «enum» := p.enum }) ∧
    ((∀ p ∈ ps, ¬ p.name = nm) →
      upsertActiveParam ps nm v =
        ps ++ [{ name := nm, value := v, active := true, «enum» := [] }]) := by
  refine ⟨?_, upsertActiveParam_append ps nm v⟩
  induction ps with
  | nil => intro idx p _ hp; simp at hp
  | cons q l ih =>
    intro idx p hfirst hp hnm
    cases idx with
    | zero =>
      simp only [List.getElem?_cons_zero, Option.some.injEq] at hp
      subst hp
      rw [upsertActiveParam_cons_eq q l nm v hnm]
      rfl
    | succ j =>
      have hq : ¬ q.name = nm := hfirst 0 q (Nat.succ_pos j) (by simp)
      rw [upsertActiveParam_cons_ne q l nm v hq, List.set_cons_succ]
      simp only [List.getElem?_cons_succ] at hp
      rw [ih j p (fun i r hi hr => hfirst (i + 1) r (by omega) (by simpa using hr)) hp hnm]

/-- Witness for C10: a user-supplied inactive `timestamp` param is
re-activated in place at its existing position (not appended last). -/
theorem claim_C10_witness :
    upsertActiveParam [⟨"timestamp", "5", false, []⟩, ⟨"a", "1", true, []⟩]
      "timestamp" "999" =
      [⟨"timestamp", "999", true, []⟩, ⟨"a", "1", true, []⟩] := by
  have h := (claim_C10 [⟨"timestamp", "5", false, []⟩, ⟨"a", "1", true, []⟩]
    "timestamp" "999").1 0 ⟨"timestamp", "5", false, []⟩
    (fun j q hj => by omega) rfl rfl
  simpa using h

end Zudoku

namespace Zudoku

/-! ## Claim C4 — signing preconditions -/

/-- **C4 counterexample** — the API-key check consults only the *first*
header entry with the designated name: with an inactive first entry and
an active, non-empty duplicate after it, an active non-empty value exists
among the headers, the API secret is fine, and yet the submission is
rejected — contradicting "fails iff no non-empty value exists among
active headers". -/
theorem claim_C4_counterexample :
    jsTrim "s3cr3t" ≠ "" ∧
    (∃ h ∈ ([⟨"X-MBX-APIKEY", "key", false, []⟩,
             ⟨"X-MBX-APIKEY", "key", true, []⟩] : List Param),
      h.name = "X-MBX-APIKEY" ∧ h.active = true ∧ h.value ≠ "") ∧
    exceptErr (signSubmission "X-MBX-APIKEY" "999"
      ⟨some "s3cr3t", "", some .text, false, [],
        [⟨"X-MBX-APIKEY", "key", false, []⟩, ⟨"X-MBX-APIKEY", "key", true, []⟩]⟩) =
      some "Missing X-MBX-APIKEY header. Enable it in Headers and provide your API key." := by
  refine ⟨by decide, by decide, by decide⟩

/-- **C4 (amended)** — the two signing preconditions are checked in order,
first failure winning, and a failure is an error thrown before any
network call: an empty trimmed API secret fails with the message naming
"API Secret"; otherwise, if the *first* header entry whose name equals
the designated API-key header is absent, inactive, or blank after
trimming, the submission fails with the message naming that header;
otherwise signing proceeds. -/
theorem claim_C4_amended (hdr ts : String) (form : PlaygroundForm) :
    (jsTrim (form.apiSecret.getD "") = "" →
      signSubmission hdr ts form = .error "API Secret is required for signed endpoints.") ∧
    (jsTrim (form.apiSecret.getD "") ≠ "" →
      (match form.headers.find? (fun x => x.name = hdr) with
        | none => True
        | some h => h.active = false ∨ jsTrim h.value = "") →
      signSubmission hdr ts form =
        .error ("Missing " ++ hdr ++ " header. Enable it in Headers and provide your API key.")) ∧
    (jsTrim (form.apiSecret.getD "") ≠ "" →
      (∃ h, form.headers.find? (fun x => x.name = hdr) = some h ∧
        h.active = true ∧ jsTrim h.value ≠ "") →
      ∃ out, signSubmission hdr ts form = .ok out) := by
  refine ⟨fun hs => ?_, fun hs hh => ?_, fun hs hh => ?_⟩
  · simp only [signSubmission]
    rw [if_pos hs]
  · have hg : getHeaderValue form.headers hdr = "" := by
      unfold getHeaderValue
      cases hf : form.headers.find? (fun x => x.name = hdr) with
      | none => rfl
      | some h =>
        rw [hf] at hh
        dsimp only
        rcases hh with h1 | h2
        · rw [if_pos (by simp [h1])]
        · rw [h2]
          split <;> rfl
    simp only [signSubmission]
    rw [if_neg hs, if_pos hg]
  · have hg : getHeaderValue form.headers hdr ≠ "" := by
      obtain ⟨h, hfind, hact, hval⟩ := hh
      unfold getHeaderValue
      rw [hfind]
      dsimp only
      rw [if_neg (by simp [hact])]
      exact hval
    simp only [signSubmission]
    rw [if_neg hs, if_neg hg]
    exact ⟨_, rfl⟩

/-- Witness for C4 (amended): the three branches at concrete forms — a
blank secret, an absent API-key header, and a present active one. -/
theorem claim_C4_amended_witness :
    signSubmission "X-MBX-APIKEY" "1" ⟨some "  ", "", some .text, false, [], []⟩ =
      .error "API Secret is required for signed endpoints." ∧
    signSubmission "X-MBX-APIKEY" "1" ⟨some "s3cr3t", "", some .text, false, [], []⟩ =
      .error "Missing X-MBX-APIKEY header. Enable it in Headers and provide your API key." ∧
    exceptErr (signSubmission "X-MBX-APIKEY" "1"
      ⟨some "s3cr3t", "", some .text, false, [],
        [⟨"X-MBX-APIKEY", "key", true, []⟩]⟩) = none := by
  refine ⟨(claim_C4_amended "X-MBX-APIKEY" "1" _).1 (by decide),
    (claim_C4_amended "X-MBX-APIKEY" "1" _).2.1 (by decide) (by trivial), ?_⟩
  obtain ⟨out, hout⟩ := (claim_C4_amended "X-MBX-APIKEY" "1"
    ⟨some "s3cr3t", "", some .text, false, [],
      [⟨"X-MBX-APIKEY", "key", true, []⟩]⟩).2.2 (by decide)
    ⟨⟨"X-MBX-APIKEY", "key", true, []⟩, by decide, by decide, by decide⟩
  rw [hout]
  rfl

end Zudoku

namespace Zudoku

/-! ## Claim C3 — forwarded header set -/

/-- `getLast?` of a cons, in `Option.or` form. -/
theorem getLast?_cons_or {α : Type} (a : α) (l : List α) :
    (a :: l).getLast? = l.getLast?.or (some a) := by
  rw [List.getLast?_cons]
  cases l.getLast? <;> rfl

/-- Replacing the entries keyed `k` does not change lookups at other
keys. -/
theorem find?_map_replace {α : Type} (r : List (String × α)) (k k' : String) (v : α)
    (hk' : k' ≠ k) :
    List.find? (fun p => p.1 = k')
        (r.map (fun p => if p.1 = k then (k, v) else p)) =
      List.find? (fun p => p.1 = k') r := by
  induction r with
  | nil => rfl
  | cons p t ih =>
    by_cases hp : p.1 = k
    · rw [List.map_cons, if_pos hp]
      rw [List.find?_cons_of_neg _
          (by simp only [decide_eq_true_eq]; exact fun h => hk' h.symm),
        List.find?_cons_of_neg _
          (by simp only [decide_eq_true_eq, hp]; exact fun h => hk' h.symm), ih]
    · rw [List.map_cons, if_neg hp]
      by_cases hpk : p.1 = k'
      · rw [List.find?_cons_of_pos _ (by simp [hpk]),
          List.find?_cons_of_pos _ (by simp [hpk])]
      · rw [List.find?_cons_of_neg _ (by simp [hpk]),
          List.find?_cons_of_neg _ (by simp [hpk]), ih]

/-- Replacing the entries keyed `k` makes lookup at `k` read the new
value, provided some entry has key `k`. -/
theorem find?_map_replace_self {α : Type} (r : List (String × α)) (k : String) (v : α)
    (hany : r.any (fun p => p.1 = k) = true) :
    List.find? (fun p => p.1 = k)
        (r.map (fun p => if p.1 = k then (k, v) else p)) = some (k, v) := by
  induction r with
  | nil => simp at hany
  | cons p t ih =>
    by_cases hp : p.1 = k
    · rw [List.map_cons, if_pos hp, List.find?_cons_of_pos _ (by simp)]
    · rw [List.map_cons, if_neg hp, List.find?_cons_of_neg _ (by simp [hp])]
      simp only [List.any_cons, Bool.or_eq_true, decide_eq_true_eq] at hany
      exact ih (by simpa using hany.resolve_left hp)

/-- Looking up after a JS object assignment: the assigned key reads the
new value, every other key is unaffected. -/
theorem recLookup_recInsert {α : Type} (r : List (String × α)) (k k' : String) (v : α) :
    recLookup (recInsert r k v) k' = if k' = k then some v else recLookup r k' := by
  unfold recInsert recLookup
  by_cases hany : r.any (fun p => p.1 = k)
  · rw [if_pos hany]
    by_cases hk : k' = k
    · rw [if_pos hk, hk, find?_map_replace_self r k v hany]
      rfl
    · rw [if_neg hk, find?_map_replace r k k' v hk]
  · rw [if_neg hany]
    rw [List.find?_append]
    by_cases hk : k' = k
    · rw [if_pos hk]
      have hnone : List.find? (fun p => p.1 = k') r = none := by
        rw [List.find?_eq_none]
        intro x hx
        simp only [hk, decide_eq_true_eq]
        intro hxk
        rw [List.any_eq_true] at hany
        exact hany ⟨x, hx, by simp [hxk]⟩
      rw [hnone]
      simp [hk]
    · rw [if_neg hk]
      have : List.find? (fun p => p.1 = k') [(k, v)] = none := by
        have : ¬ ((k, v).1 = k') := fun h => hk h.symm
        simp [this]
      rw [this, Option.or_none]

end Zudoku

namespace Zudoku

/-- A name whose lowercasing is one of the three stripped names, spelled
as the handler spells it, is exactly a stripped name. -/
theorem isStrippedName_iff (n : String) :
    (jsToLowerCase n = "host" ∨ jsToLowerCase n = "connection" ∨
      jsToLowerCase n = "content-length") ↔ isStrippedName n = true := by
  simp [isStrippedName]
  tauto

/-- Membership after assignment comes from the new pair or the old
record. -/
theorem mem_recInsert {α : Type} (r : List (String × α)) (k : String) (v : α)
    (kv : String × α) (h : kv ∈ recInsert r k v) : kv = (k, v) ∨ kv ∈ r := by
  unfold recInsert at h
  by_cases hany : r.any (fun p => p.1 = k)
  · rw [if_pos hany] at h
    obtain ⟨p, hp, hpe⟩ := List.mem_map.mp h
    by_cases hpk : p.1 = k
    · rw [if_pos hpk] at hpe
      exact Or.inl hpe.symm
    · rw [if_neg hpk] at hpe
      exact Or.inr (hpe ▸ hp)
  · rw [if_neg hany] at h
    rcases List.mem_append.mp h with h1 | h2
    · exact Or.inr h1
    · simp only [List.mem_singleton] at h2
      exact Or.inl h2

/-- Last supplied value at a name, when the head has another name. -/
theorem lastValueOf_cons_ne (kv : String × String) (t : List (String × String))
    (k : String) (h : ¬ kv.1 = k) :
    lastValueOf (kv :: t) k = lastValueOf t k := by
  unfold lastValueOf
  rw [List.filter_cons_of_neg (by simpa using h)]

/-- Last supplied value at the head's own name. -/
theorem lastValueOf_cons_eq (kv : String × String) (t : List (String × String))
    (k : String) (h : kv.1 = k) :
    lastValueOf (kv :: t) k = (lastValueOf t k).or (some kv.2) := by
  unfold lastValueOf
  rw [List.filter_cons_of_pos (by simpa using h), getLast?_cons_or]
  cases (t.filter (fun p => p.1 = k)).getLast? <;> rfl

/-- Lookups through the header loop: a good name reads the last supplied
value (falling back to the accumulator), anything else reads the
accumulator. -/
theorem foldl_forwardHeaders_lookup (hs : List (String × String)) :
    ∀ (acc : List (String × String)) (k : String),
      recLookup (hs.foldl forwardHeadersStep acc) k =
        if k ≠ "" ∧ isStrippedName k = false then
          (lastValueOf hs k).or (recLookup acc k)
        else recLookup acc k := by
  induction hs with
  | nil =>
    intro acc k
    have : lastValueOf [] k = none := rfl
    rw [List.foldl_nil, this]
    split <;> rfl
  | cons kv t ih =>
    intro acc k
    rw [List.foldl_cons, ih]
    unfold forwardHeadersStep
    by_cases h0 : kv.1 = ""
    · rw [if_pos h0]
      by_cases hgood : k ≠ "" ∧ isStrippedName k = false
      · rw [if_pos hgood, if_pos hgood,
          lastValueOf_cons_ne kv t k (by rw [h0]; exact fun h => hgood.1 h.symm)]
      · rw [if_neg hgood, if_neg hgood]
    · rw [if_neg h0]
      by_cases hstr : jsToLowerCase kv.1 = "host" ∨ jsToLowerCase kv.1 = "connection" ∨
          jsToLowerCase kv.1 = "content-length"
      · rw [if_pos hstr]
        have hkvStripped : isStrippedName kv.1 = true := (isStrippedName_iff kv.1).mp hstr
        by_cases hgood : k ≠ "" ∧ isStrippedName k = false
        · rw [if_pos hgood, if_pos hgood,
            lastValueOf_cons_ne kv t k (fun h => by rw [h] at hkvStripped; rw [hkvStripped] at hgood; exact absurd hgood.2 (by simp))]
        · rw [if_neg hgood, if_neg hgood]
      · rw [if_neg hstr]
        have hkvGood : kv.1 ≠ "" ∧ isStrippedName kv.1 = false :=
          ⟨h0, by rw [← Bool.not_eq_true]; exact fun h => hstr ((isStrippedName_iff kv.1).mpr h)⟩
        by_cases hk : k = kv.1
        · rw [if_pos (hk ▸ hkvGood), if_pos (hk ▸ hkvGood)]
          rw [recLookup_recInsert acc kv.1 k kv.2, if_pos hk,
            lastValueOf_cons_eq kv t k hk.symm, Option.or_assoc]
          have : (some kv.2).or (recLookup acc k) = some kv.2 := rfl
          rw [this]
        · rw [recLookup_recInsert acc kv.1 k kv.2, if_neg hk,
            lastValueOf_cons_ne kv t k (fun h => hk h.symm)]

/-- Membership through the header loop comes from the accumulator or from
a good supplied header. -/
theorem mem_foldl_forwardHeaders (hs : List (String × String)) :
    ∀ (acc : List (String × String)) (kv : String × String),
      kv ∈ hs.foldl forwardHeadersStep acc →
      kv ∈ acc ∨ (kv.1 ≠ "" ∧ isStrippedName kv.1 = false ∧
        ∃ kv' ∈ hs, kv'.1 = kv.1 ∧ kv'.2 = kv.2) := by
  induction hs with
  | nil => intro acc kv h; exact Or.inl h
  | cons hd t ih =>
    intro acc kv h
    rw [List.foldl_cons] at h
    rcases ih _ kv h with hacc | ⟨h1, h2, kv', hkv', he1, he2⟩
    · unfold forwardHeadersStep at hacc
      by_cases h0 : hd.1 = ""
      · rw [if_pos h0] at hacc
        exact Or.inl hacc
      · rw [if_neg h0] at hacc
        by_cases hstr : jsToLowerCase hd.1 = "host" ∨ jsToLowerCase hd.1 = "connection" ∨
            jsToLowerCase hd.1 = "content-length"
        · rw [if_pos hstr] at hacc
          exact Or.inl hacc
        · rw [if_neg hstr] at hacc
          rcases mem_recInsert acc hd.1 hd.2 kv hacc with he | hm
          · refine Or.inr ⟨by rw [he]; exact h0, ?_, hd, by simp, by rw [he], by rw [he]⟩
            rw [he]
            show isStrippedName hd.1 = false
            rw [← Bool.not_eq_true]
            exact fun hh => hstr ((isStrippedName_iff hd.1).mpr hh)
          · exact Or.inl hm
    · exact Or.inr ⟨h1, h2, kv', List.mem_cons_of_mem hd hkv', he1, he2⟩

end Zudoku

namespace Zudoku

/-- **C3 counterexample** — when a name is supplied twice, only the last
value survives in the forwarded record, so the earlier supplied header —
whose name is not one of the stripped three — is *not* contained in the
forwarded set, contrary to the claim. -/
theorem claim_C3_counterexample :
    ("X-A", "1") ∈ ([("X-A", "1"), ("X-A", "2")] : List (String × String)) ∧
    isStrippedName "X-A" = false ∧
    ("X-A", "1") ∉ buildForwardHeaders [("X-A", "1"), ("X-A", "2")] := by
  refine ⟨by decide, by decide, by decide⟩

/-- **C3 (amended)** — the forwarded header record: (1) contains only
pairs whose name is nonempty, not one of `host`/`connection`/
`content-length` (case-insensitively), and which occur in the supplied
list name-and-value; (2) names that are empty or stripped resolve to
nothing; (3) every other supplied name resolves to the value of its last
occurrence (names and values unchanged). -/
theorem claim_C3_amended (hs : List (String × String)) :
    (∀ kv ∈ buildForwardHeaders hs,
      kv.1 ≠ "" ∧ isStrippedName kv.1 = false ∧
        ∃ kv' ∈ hs, kv'.1 = kv.1 ∧ kv'.2 = kv.2) ∧
    (∀ kv ∈ hs, (kv.1 = "" ∨ isStrippedName kv.1 = true) →
      recLookup (buildForwardHeaders hs) kv.1 = none) ∧
    (∀ kv ∈ hs, kv.1 ≠ "" → isStrippedName kv.1 = false →
      recLookup (buildForwardHeaders hs) kv.1 = lastValueOf hs kv.1) := by
  refine ⟨?_, ?_, ?_⟩
  · intro kv h
    rcases mem_foldl_forwardHeaders hs [] kv h with habs | hgood
    · simp at habs
    · exact hgood
  · intro kv _ hbad
    show recLookup (hs.foldl forwardHeadersStep []) kv.1 = none
    rw [foldl_forwardHeaders_lookup hs [] kv.1]
    have hnot : ¬ (kv.1 ≠ "" ∧ isStrippedName kv.1 = false) := by
      rcases hbad with h | h
      · exact fun hc => hc.1 h
      · intro hc
        rw [h] at hc
        exact absurd hc.2 (by simp)
    rw [if_neg hnot]
    rfl
  · intro kv _ hne hstr
    show recLookup (hs.foldl forwardHeadersStep []) kv.1 = lastValueOf hs kv.1
    rw [foldl_forwardHeaders_lookup hs [] kv.1, if_pos ⟨hne, hstr⟩]
    have : recLookup ([] : List (String × String)) kv.1 = none := rfl
    rw [this, Option.or_none]

/-- Witness for C3 (amended): `Host` is stripped, a duplicated `X-A`
resolves to its last supplied value. -/
theorem claim_C3_amended_witness :
    recLookup (buildForwardHeaders [("Host", "h"), ("X-A", "1"), ("X-A", "2")]) "Host" =
      none ∧
    recLookup (buildForwardHeaders [("Host", "h"), ("X-A", "1"), ("X-A", "2")]) "X-A" =
      lastValueOf [("Host", "h"), ("X-A", "1"), ("X-A", "2")] "X-A" :=
  ⟨(claim_C3_amended _).2.1 ("Host", "h") (by decide) (Or.inr (by decide)),
   (claim_C3_amended _).2.2 ("X-A", "1") (by decide) (by decide) (by decide)⟩

end Zudoku

namespace Zudoku

/-! ## Claim C9 — form state is never mutated -/

/-- The heap-level upsert reads old objects but never overwrites one:
every arena slot that existed before still holds the same object. -/
theorem upsertActiveParamST_getElem (store : List Param) (refs : List Nat)
    (nm v : String) (r : Nat) (hr : r < store.length) :
    ((upsertActiveParamST store refs nm v).1)[r]? = store[r]? := by
  unfold upsertActiveParamST
  cases hfi : refs.findIdx? (fun r =>
      match store[r]? with
      | some p => p.name = nm
      | none => false) with
  | none =>
    exact List.getElem?_append_left hr
  | some idx =>
    cases hri : refs[idx]? with
    | none => simp [hri]
    | some rr =>
      cases hsr : store[rr]? with
      | none => simp [hri, hsr]
      | some p => simp [hri, hsr, List.getElem?_append_left hr]

/-- The heap-level upsert never shrinks the arena. -/
theorem upsertActiveParamST_length (store : List Param) (refs : List Nat)
    (nm v : String) :
    store.length ≤ ((upsertActiveParamST store refs nm v).1).length := by
  unfold upsertActiveParamST
  cases refs.findIdx? (fun r =>
      match store[r]? with
      | some p => p.name = nm
      | none => false) with
  | none => simp
  | some idx =>
    cases hri : refs[idx]? with
    | none => simp [hri]
    | some rr =>
      cases hsr : store[rr]? with
      | none => simp [hri, hsr]
      | some p => simp [hri, hsr]

/-- **C9** — the submission never mutates the form state it was given:
the orchestrator works on shallow copies, and the `timestamp` and
`signature` upserts allocate fresh objects (replacing slots of the copy
or appending to it), so after both upserts every entry the original
query-param array references is unchanged. -/
theorem claim_C9 (store : List Param) (refs origRefs : List Nat) (ts sig : String)
    (hvalid : ∀ r ∈ origRefs, r < store.length) :
    derefParams
      ((upsertActiveParamST (upsertActiveParamST store refs "timestamp" ts).1
        (upsertActiveParamST store refs "timestamp" ts).2 "signature" sig).1) origRefs =
      derefParams store origRefs := by
  unfold derefParams
  apply List.map_congr_left
  intro r hr
  have h1 : r < store.length := hvalid r hr
  have h2 : r < ((upsertActiveParamST store refs "timestamp" ts).1).length :=
    lt_of_lt_of_le h1 (upsertActiveParamST_length store refs "timestamp" ts)
  rw [upsertActiveParamST_getElem _ _ "signature" sig r h2,
    upsertActiveParamST_getElem store refs "timestamp" ts r h1]

/-- Witness for C9: a one-object arena with a shared reference is
untouched by the two upserts. -/
theorem claim_C9_witness :
    (∀ r ∈ [0], r < ([⟨"a", "1", true, []⟩] : List Param).length) ∧
    derefParams
      ((upsertActiveParamST
        (upsertActiveParamST [⟨"a", "1", true, []⟩] [0] "timestamp" "999").1
        (upsertActiveParamST [⟨"a", "1", true, []⟩] [0] "timestamp" "999").2
        "signature" "s").1) [0] =
      derefParams [⟨"a", "1", true, []⟩] [0] :=
  ⟨by decide, claim_C9 [⟨"a", "1", true, []⟩] [0] [0] "999" "s" (by decide)⟩

end Zudoku

namespace Zudoku

/-! ## Record characterization for claims C5 and C1 -/

/-- Last active value, when the head is inactive. -/
theorem lastActiveValue_cons_inactive (p : ActivePair) (t : List ActivePair)
    (k : String) (h : p.active = false) :
    lastActiveValue (p :: t) k = lastActiveValue t k := by
  unfold lastActiveValue
  rw [List.filter_cons_of_neg (by simp [h])]

/-- Last active value, when the head has another name. -/
theorem lastActiveValue_cons_ne (p : ActivePair) (t : List ActivePair)
    (k : String) (h : ¬ p.name = k) :
    lastActiveValue (p :: t) k = lastActiveValue t k := by
  unfold lastActiveValue
  rw [List.filter_cons_of_neg (by simp [h])]

/-- Last active value at the head's own name, when the head is active. -/
theorem lastActiveValue_cons_active (p : ActivePair) (t : List ActivePair)
    (k : String) (hn : p.name = k) (ha : p.active = true) :
    lastActiveValue (p :: t) k = (lastActiveValue t k).or (some p.value) := by
  unfold lastActiveValue
  rw [List.filter_cons_of_pos (by simp [hn, ha]), getLast?_cons_or]
  cases (t.filter (fun p => p.active && p.name == k)).getLast? <;> rfl

/-- Lookups through the record loop: a nonempty name reads its last
active value (falling back to the accumulator), the empty name reads the
accumulator. -/
theorem foldl_activePairs_lookup (ps : List ActivePair) :
    ∀ (acc : List (String × JSValue)) (k : String),
      recLookup (ps.foldl activePairsStep acc) k =
        if k ≠ "" then (lastActiveValue ps k).or (recLookup acc k)
        else recLookup acc k := by
  induction ps with
  | nil =>
    intro acc k
    have h : lastActiveValue [] k = none := rfl
    rw [List.foldl_nil, h]
    split <;> rfl
  | cons p t ih =>
    intro acc k
    rw [List.foldl_cons, ih]
    unfold activePairsStep
    by_cases h0 : p.name = ""
    · rw [if_pos h0]
      by_cases hk : k ≠ ""
      · rw [if_pos hk, if_pos hk,
          lastActiveValue_cons_ne p t k (by rw [h0]; exact fun h => hk h.symm)]
      · rw [if_neg hk, if_neg hk]
    · rw [if_neg h0]
      by_cases hact : p.active = false
      · rw [if_pos hact]
        by_cases hk : k ≠ ""
        · rw [if_pos hk, if_pos hk, lastActiveValue_cons_inactive p t k hact]
        · rw [if_neg hk, if_neg hk]
      · rw [if_neg hact]
        have hact' : p.active = true := by
          cases hb : p.active
          · exact absurd hb hact
          · rfl
        by_cases hk : k = p.name
        · have hk' : k ≠ "" := by rw [hk]; exact h0
          rw [if_pos hk', if_pos hk']
          rw [recLookup_recInsert acc p.name k p.value, if_pos hk,
            lastActiveValue_cons_active p t k hk.symm hact', Option.or_assoc]
          rfl
        · rw [recLookup_recInsert acc p.name k p.value, if_neg hk,
            lastActiveValue_cons_ne p t k (fun h => hk h.symm)]

end Zudoku

namespace Zudoku

/-- Replacing entries keyed `k` leaves the key sequence unchanged. -/
theorem keys_map_replace {α : Type} (r : List (String × α)) (k : String) (v : α) :
    (r.map (fun p => if p.1 = k then (k, v) else p)).map Prod.fst = r.map Prod.fst := by
  rw [List.map_map]
  apply List.map_congr_left
  intro q _
  by_cases hq : q.1 = k
  · simp [Function.comp, hq]
  · simp [Function.comp, hq]

/-- The key sequence after a JS object assignment: unchanged if the key
was present, else the key is appended. -/
theorem keys_recInsert {α : Type} (r : List (String × α)) (k : String) (v : α) :
    (recInsert r k v).map Prod.fst =
      if r.any (fun p => p.1 = k) then r.map Prod.fst else r.map Prod.fst ++ [k] := by
  unfold recInsert
  by_cases hany : r.any (fun p => p.1 = k)
  · rw [if_pos hany, if_pos hany, keys_map_replace]
  · rw [if_neg hany, if_neg hany]
    simp

/-- A key is in a record's key sequence iff some entry carries it. -/
theorem any_key_iff {α : Type} (r : List (String × α)) (k : String) :
    r.any (fun p => p.1 = k) = true ↔ k ∈ r.map Prod.fst := by
  simp [List.any_eq_true, List.mem_map]

/-- Dedup drops a head already seen. -/
theorem dedupFirstGo_cons_mem (seen : List String) (x : String) (l : List String)
    (h : x ∈ seen) : dedupFirstGo seen (x :: l) = dedupFirstGo seen l := by
  unfold dedupFirstGo
  rw [if_pos (List.elem_iff.mpr h)]
  cases l <;> rfl

/-- Dedup keeps an unseen head and marks it seen. -/
theorem dedupFirstGo_cons_not_mem (seen : List String) (x : String) (l : List String)
    (h : x ∉ seen) : dedupFirstGo seen (x :: l) = x :: dedupFirstGo (x :: seen) l := by
  unfold dedupFirstGo
  rw [if_neg (fun hc => h (List.elem_iff.mp hc))]
  cases l <;> rfl

/-- First-occurrence dedup only depends on the membership of `seen`. -/
theorem dedupFirstGo_congr (l : List String) :
    ∀ s1 s2 : List String, (∀ x, x ∈ s1 ↔ x ∈ s2) →
      dedupFirstGo s1 l = dedupFirstGo s2 l := by
  induction l with
  | nil => intro s1 s2 _; rfl
  | cons x t ih =>
    intro s1 s2 hs
    unfold dedupFirstGo
    by_cases hx : x ∈ s1
    · rw [if_pos (List.elem_iff.mpr hx), if_pos (List.elem_iff.mpr ((hs x).mp hx))]
      exact ih s1 s2 hs
    · rw [if_neg (fun hc => hx (List.elem_iff.mp hc)),
        if_neg (fun hc => hx ((hs x).mpr (List.elem_iff.mp hc)))]
      rw [ih (x :: s1) (x :: s2) (fun y => by simp [hs y])]

/-- The key sequence through the record loop: the accumulator's keys,
then the new active nonempty names in first-occurrence order. -/
theorem foldl_activePairs_keys (ps : List ActivePair) :
    ∀ acc : List (String × JSValue),
      (ps.foldl activePairsStep acc).map Prod.fst =
        acc.map Prod.fst ++
          dedupFirstGo (acc.map Prod.fst)
            ((ps.filter (fun p => p.active && p.name != "")).map (fun p => p.name)) := by
  induction ps with
  | nil =>
    intro acc
    rw [List.foldl_nil, List.filter_nil, List.map_nil]
    have : dedupFirstGo (acc.map Prod.fst) [] = [] := rfl
    rw [this, List.append_nil]
  | cons p t ih =>
    intro acc
    rw [List.foldl_cons]
    by_cases h0 : p.name = ""
    · have hstep : activePairsStep acc p = acc := by
        unfold activePairsStep
        rw [if_pos h0]
      rw [hstep, ih, List.filter_cons_of_neg (by simp [h0])]
    · by_cases hact : p.active = false
      · have hstep : activePairsStep acc p = acc := by
          unfold activePairsStep
          rw [if_neg h0, if_pos hact]
        rw [hstep, ih, List.filter_cons_of_neg (by simp [hact])]
      · have hact' : p.active = true := by
          cases hb : p.active
          · exact absurd hb hact
          · rfl
        have hstep : activePairsStep acc p = recInsert acc p.name p.value := by
          unfold activePairsStep
          rw [if_neg h0, if_neg hact]
        rw [hstep, ih, List.filter_cons_of_pos (by simp [hact', h0]), List.map_cons]
        by_cases hmem : p.name ∈ acc.map Prod.fst
        · rw [dedupFirstGo_cons_mem _ _ _ hmem]
          simp only [keys_recInsert, if_pos ((any_key_iff acc p.name).mpr hmem)]
        · rw [dedupFirstGo_cons_not_mem _ _ _ hmem]
          simp only [keys_recInsert,
            if_neg (fun hc => hmem ((any_key_iff acc p.name).mp hc))]
          rw [dedupFirstGo_congr
            ((t.filter (fun p => p.active && p.name != "")).map (fun p => p.name))
            (acc.map Prod.fst ++ [p.name]) (p.name :: acc.map Prod.fst)
            (fun x => by simp [or_comm])]
          simp

end Zudoku

namespace Zudoku

/-- A record with no entry at a key reads nothing. -/
theorem recLookup_eq_none {α : Type} (r : List (String × α)) (k : String)
    (h : k ∉ r.map Prod.fst) : recLookup r k = none := by
  unfold recLookup
  rw [List.find?_eq_none.mpr]
  · rfl
  · intro x hx
    simp only [decide_eq_true_eq]
    exact fun he => h (List.mem_map.mpr ⟨x, hx, he⟩)

/-- Two records with the same duplicate-free key sequence and the same
lookups are equal. -/
theorem rec_ext {α : Type} : ∀ (r1 r2 : List (String × α)),
    r1.map Prod.fst = r2.map Prod.fst → (r1.map Prod.fst).Nodup →
    (∀ k, recLookup r1 k = recLookup r2 k) → r1 = r2
  | [], [], _, _, _ => rfl
  | [], (k, v) :: t, hk, _, _ => by simp at hk
  | (k, v) :: t, [], hk, _, _ => by simp at hk
  | (k1, v1) :: t1, (k2, v2) :: t2, hk, hnd, hl => by
    simp only [List.map_cons, List.cons.injEq] at hk
    obtain ⟨hk12, hkt⟩ := hk
    subst hk12
    rw [List.map_cons, List.nodup_cons] at hnd
    have hv : v1 = v2 := by
      have hthis := hl k1
      unfold recLookup at hthis
      rw [List.find?_cons_of_pos _ (by simp), List.find?_cons_of_pos _ (by simp)] at hthis
      simpa using hthis
    subst hv
    have htails : t1 = t2 := by
      apply rec_ext t1 t2 hkt hnd.2
      intro k'
      by_cases hk' : k' = k1
      · subst hk'
        rw [recLookup_eq_none t1 _ hnd.1, recLookup_eq_none t2 _ (hkt ▸ hnd.1)]
      · have hthis := hl k'
        unfold recLookup at hthis ⊢
        rw [List.find?_cons_of_neg _
            (by simp only [decide_eq_true_eq]; exact fun h => hk' h.symm),
          List.find?_cons_of_neg _
            (by simp only [decide_eq_true_eq]; exact fun h => hk' h.symm)] at hthis
        exact hthis
    rw [htails]

/-- Dedup yields no duplicates, and nothing already seen. -/
theorem dedupFirstGo_nodup : ∀ (l seen : List String),
    (dedupFirstGo seen l).Nodup ∧ ∀ x ∈ dedupFirstGo seen l, x ∉ seen
  | [], seen => ⟨List.nodup_nil, by intro x hx; simp [dedupFirstGo] at hx⟩
  | y :: t, seen => by
    by_cases hy : y ∈ seen
    · rw [dedupFirstGo_cons_mem seen y t hy]
      exact dedupFirstGo_nodup t seen
    · rw [dedupFirstGo_cons_not_mem seen y t hy]
      obtain ⟨hnd, hns⟩ := dedupFirstGo_nodup t (y :: seen)
      refine ⟨List.nodup_cons.mpr ⟨fun hc => (hns y hc) (by simp), hnd⟩, ?_⟩
      intro x hx
      rcases List.mem_cons.mp hx with he | hm
      · rw [he]
        exact hy
      · exact fun hc => hns x hm (by simp [hc])

/-- Membership in a dedup: present in the list and unseen. -/
theorem mem_dedupFirstGo : ∀ (l seen : List String) (x : String),
    x ∈ dedupFirstGo seen l ↔ (x ∈ l ∧ x ∉ seen)
  | [], seen, x => by simp [dedupFirstGo]
  | y :: t, seen, x => by
    by_cases hy : y ∈ seen
    · rw [dedupFirstGo_cons_mem seen y t hy, mem_dedupFirstGo t seen x]
      constructor
      · rintro ⟨h1, h2⟩
        exact ⟨List.mem_cons_of_mem y h1, h2⟩
      · rintro ⟨h1, h2⟩
        rcases List.mem_cons.mp h1 with he | hm
        · exact absurd (he ▸ hy) h2
        · exact ⟨hm, h2⟩
    · rw [dedupFirstGo_cons_not_mem seen y t hy]
      constructor
      · intro hx
        rcases List.mem_cons.mp hx with he | hm
        · exact ⟨he ▸ List.mem_cons_self y t, he ▸ hy⟩
        · obtain ⟨h1, h2⟩ := (mem_dedupFirstGo t (y :: seen) x).mp hm
          exact ⟨List.mem_cons_of_mem y h1, fun hc => h2 (List.mem_cons_of_mem y hc)⟩
      · rintro ⟨h1, h2⟩
        rcases List.mem_cons.mp h1 with he | hm
        · exact he ▸ List.mem_cons_self y _
        · by_cases hxy : x = y
          · exact hxy ▸ List.mem_cons_self y _
          · exact List.mem_cons_of_mem y
              ((mem_dedupFirstGo t (y :: seen) x).mpr ⟨hm, by simp [hxy, h2]⟩)

/-- A name is an active key iff it is nonempty and actively occurs. -/
theorem mem_activeKeys_iff (ps : List ActivePair) (k : String) :
    k ∈ activeKeys ps ↔
      (k ≠ "" ∧ ∃ p ∈ ps, p.active = true ∧ p.name = k) := by
  unfold activeKeys
  rw [mem_dedupFirstGo]
  simp only [List.mem_map, List.mem_filter, Bool.and_eq_true, bne_iff_ne,
    List.not_mem_nil, not_false_iff, and_true]
  constructor
  · rintro ⟨p, ⟨hp, ha, hn⟩, he⟩
    exact ⟨he ▸ hn, p, hp, ha, he⟩
  · rintro ⟨hk, p, hp, ha, he⟩
    exact ⟨p, ⟨hp, ha, he ▸ hk⟩, he⟩

/-- An actively occurring name has a last active value. -/
theorem lastActiveValue_isSome (ps : List ActivePair) (k : String)
    (h : ∃ p ∈ ps, p.active = true ∧ p.name = k) :
    ∃ v, lastActiveValue ps k = some v := by
  obtain ⟨p, hp, ha, hn⟩ := h
  unfold lastActiveValue
  have hne : ps.filter (fun p => p.active && p.name == k) ≠ [] := by
    intro hc
    rw [List.filter_eq_nil_iff] at hc
    exact hc p hp (by simp [ha, hn])
  obtain ⟨v, hv⟩ := Option.isSome_iff_exists.mp (List.getLast?_isSome.mpr hne)
  exact ⟨v.value, by rw [hv]; rfl⟩

/-- A name with no active occurrence has no last active value. -/
theorem lastActiveValue_eq_none (ps : List ActivePair) (k : String)
    (h : ¬ ∃ p ∈ ps, p.active = true ∧ p.name = k) :
    lastActiveValue ps k = none := by
  unfold lastActiveValue
  have : ps.filter (fun p => p.active && p.name == k) = [] := by
    rw [List.filter_eq_nil_iff]
    intro p hp hc
    simp only [Bool.and_eq_true, beq_iff_eq] at hc
    exact h ⟨p, hp, hc⟩
  rw [this]
  rfl

/-- `filterMap` of a total function is a `map`. -/
theorem filterMap_eq_map_of_forall {α β : Type} (f : α → Option β) (g : α → β) :
    ∀ l : List α, (∀ x ∈ l, f x = some (g x)) → l.filterMap f = l.map g
  | [], _ => rfl
  | x :: t, h => by
    rw [List.filterMap_cons, h x (List.mem_cons_self x t),
      filterMap_eq_map_of_forall f g t (fun y hy => h y (List.mem_cons_of_mem x hy)),
      List.map_cons]

/-- The declarative record is the graph of `lastActiveValue` on the
active keys. -/
theorem specRecordOf_eq_map (ps : List ActivePair) :
    specRecordOf ps =
      (activeKeys ps).map (fun k => (k, (lastActiveValue ps k).getD .undefined)) := by
  unfold specRecordOf
  apply filterMap_eq_map_of_forall
  intro k hk
  obtain ⟨v, hv⟩ := lastActiveValue_isSome ps k ((mem_activeKeys_iff ps k).mp hk).2
  rw [hv]
  rfl

/-- Lookup in the graph of a function over a key list. -/
theorem recLookup_graph (ks : List String) (f : String → JSValue) (k : String) :
    recLookup (ks.map (fun k => (k, f k))) k =
      if k ∈ ks then some (f k) else none := by
  induction ks with
  | nil => rfl
  | cons y t ih =>
    rw [List.map_cons]
    by_cases hk : k = y
    · subst hk
      unfold recLookup
      rw [List.find?_cons_of_pos _ (by simp)]
      simp
    · unfold recLookup at ih ⊢
      rw [List.find?_cons_of_neg _
          (by simp only [decide_eq_true_eq]; exact fun h => hk h.symm), ih]
      simp [hk]

/-- The embedded `toRecordFromActivePairs` equals the declarative
record. -/
theorem toRecord_eq_specRecord (ps : List ActivePair) :
    toRecordFromActivePairs ps = specRecordOf ps := by
  have hkeysL : (toRecordFromActivePairs ps).map Prod.fst = activeKeys ps := by
    show ((ps.foldl activePairsStep []).map Prod.fst) = _
    rw [foldl_activePairs_keys ps []]
    rfl
  have hkeysR : (specRecordOf ps).map Prod.fst = activeKeys ps := by
    rw [specRecordOf_eq_map, List.map_map]
    have : (Prod.fst ∘ fun k => (k, (lastActiveValue ps k).getD JSValue.undefined)) =
        fun k : String => k := rfl
    rw [this, List.map_id']
  apply rec_ext
  · rw [hkeysL, hkeysR]
  · rw [hkeysL]
    unfold activeKeys
    exact (dedupFirstGo_nodup _ []).1
  · intro k
    have hL : recLookup (toRecordFromActivePairs ps) k =
        if k ≠ "" then lastActiveValue ps k else none := by
      show recLookup (ps.foldl activePairsStep []) k = _
      rw [foldl_activePairs_lookup ps [] k]
      have hnone : recLookup ([] : List (String × JSValue)) k = none := rfl
      rw [hnone]
      split
      · exact Option.or_none
      · rfl
    rw [hL, specRecordOf_eq_map, recLookup_graph]
    by_cases hmem : k ∈ activeKeys ps
    · obtain ⟨hk, hocc⟩ := (mem_activeKeys_iff ps k).mp hmem
      obtain ⟨v, hv⟩ := lastActiveValue_isSome ps k hocc
      rw [if_pos hmem, if_pos hk, hv]
      rfl
    · rw [if_neg hmem]
      by_cases hk : k ≠ ""
      · rw [if_pos hk]
        apply lastActiveValue_eq_none
        intro hocc
        exact hmem ((mem_activeKeys_iff ps k).mpr ⟨hk, hocc⟩)
      · rw [if_neg hk]

end Zudoku

namespace Zudoku

/-- Insertion sort steps commute with mapping, when the sort key factors
through the map. -/
theorem insertByNat_map {α β : Type} (h : β → Nat) (g : α → β) (x : α) :
    ∀ l : List α, insertByNat h (g x) (l.map g) = (insertByNat (fun a => h (g a)) x l).map g
  | [] => rfl
  | y :: t => by
    rw [List.map_cons]
    show (if h (g x) ≤ h (g y) then g x :: g y :: t.map g
        else g y :: insertByNat h (g x) (t.map g)) =
      (if h (g x) ≤ h (g y) then x :: y :: t
        else y :: insertByNat (fun a => h (g a)) x t).map g
    by_cases hle : h (g x) ≤ h (g y)
    · rw [if_pos hle, if_pos hle, List.map_cons, List.map_cons]
    · rw [if_neg hle, if_neg hle, List.map_cons, insertByNat_map h g x t]

/-- Insertion sort commutes with mapping, when the sort key factors
through the map. -/
theorem sortByNat_map {α β : Type} (h : β → Nat) (g : α → β) :
    ∀ l : List α, sortByNat h (l.map g) = (sortByNat (fun a => h (g a)) l).map g
  | [] => rfl
  | y :: t => by
    unfold sortByNat
    rw [List.map_cons, List.foldr_cons, List.foldr_cons]
    show insertByNat h (g y) (sortByNat h (t.map g)) = _
    rw [sortByNat_map h g t]
    exact insertByNat_map h g y _

/-- Membership is preserved by an insertion step. -/
theorem mem_insertByNat {α : Type} (h : α → Nat) (x y : α) :
    ∀ l : List α, y ∈ insertByNat h x l ↔ y = x ∨ y ∈ l
  | [] => by simp [insertByNat]
  | z :: t => by
    unfold insertByNat
    by_cases hle : h x ≤ h z
    · rw [if_pos hle]
      simp [List.mem_cons]
    · rw [if_neg hle]
      simp only [List.mem_cons, mem_insertByNat h x y t]
      tauto

/-- Membership is preserved by the sort. -/
theorem mem_sortByNat {α : Type} (h : α → Nat) (y : α) :
    ∀ l : List α, y ∈ sortByNat h l ↔ y ∈ l
  | [] => Iff.rfl
  | z :: t => by
    unfold sortByNat
    rw [List.foldr_cons]
    show y ∈ insertByNat h z (sortByNat h t) ↔ _
    rw [mem_insertByNat, mem_sortByNat h y t]
    simp [List.mem_cons]

/-- The property-order enumeration of a function graph is the graph over
the ordered keys. -/
theorem jsEntries_graph (ks : List String) (f : String → JSValue) :
    jsEntries (ks.map (fun k => (k, f k))) =
      (jsKeyOrder ks).map (fun k => (k, f k)) := by
  unfold jsEntries jsKeyOrder
  rw [List.filter_map, List.filter_map, sortByNat_map, List.map_append]
  rfl

/-- Ordered keys come from the key list. -/
theorem mem_jsKeyOrder (ks : List String) (k : String) (h : k ∈ jsKeyOrder ks) :
    k ∈ ks := by
  unfold jsKeyOrder at h
  rcases List.mem_append.mp h with h1 | h2
  · exact (List.mem_filter.mp ((mem_sortByNat _ _ _).mp h1)).1
  · exact (List.mem_filter.mp h2).1

/-- The serialized record of active pairs, as the amended claim C5 words
it: one `name=percent-encode(serialize(last active value))` pair per
distinct active nonempty name whose last active value is not nullish,
array-index names first in ascending order, then first-occurrence
order. -/
theorem buildQueryString_toRecord (ps : List ActivePair) :
    buildQueryString (toRecordFromActivePairs ps) = specC5Amended ps := by
  rw [toRecord_eq_specRecord, specRecordOf_eq_map]
  unfold buildQueryString specC5Amended
  dsimp only
  rw [jsEntries_graph, List.filterMap_map]
  congr 1
  apply List.filterMap_congr
  intro k hk
  have hmem : k ∈ activeKeys ps := mem_jsKeyOrder _ k hk
  obtain ⟨v, hv⟩ := lastActiveValue_isSome ps k ((mem_activeKeys_iff ps k).mp hmem).2
  rw [Function.comp_apply, hv]
  rfl

end Zudoku

namespace Zudoku

/-! ## Claim C5 — query-string construction -/

/-- **C5 counterexample** — a `null` value is *not* `undefined`, yet the
construction drops it (the code tests `value !== null && value !==
undefined`), so the claimed "exactly the active entries with a
non-undefined value" fails. -/
theorem claim_C5_counterexample :
    buildQueryString (toRecordFromActivePairs [⟨"a", JSValue.null, true⟩]) ≠
      specC5 [⟨"a", JSValue.null, true⟩] := by
  decide

/-- **C5 (amended)** — query-string construction emits one
`name=percent-encode(serialize(value))` pair per distinct active
nonempty name whose last active value is neither `null` nor `undefined`,
carrying that last value (array/object values serialized as literal JSON
before percent-encoding; names not encoded), joined with `&` — ordered
with array-index names first ascending (JS object property order), then
the remaining names in first-occurrence order. -/
theorem claim_C5_amended (ps : List ActivePair) :
    buildQueryString (toRecordFromActivePairs ps) = specC5Amended ps :=
  buildQueryString_toRecord ps

end Zudoku

namespace Zudoku

/-! ## Parser facts for claims C7 and C1 -/

/-- JSON whitespace is `trim` whitespace. -/
theorem jsonWs_isWhitespace (c : Char) (h : jsonWs c = true) : jsWhitespace c = true := by
  unfold jsonWs at h
  simp only [Bool.or_eq_true, beq_iff_eq] at h
  rcases h with ((h | h) | h) | h <;> subst h <;> decide

/-- The head surviving a `dropWhile` fails the predicate. -/
theorem dropWhile_head_not {α : Type} (p : α → Bool) :
    ∀ (l : List α) (c : α) (r : List α), l.dropWhile p = c :: r → p c = false
  | [], c, r, h => by simp at h
  | a :: t, c, r, h => by
    rw [List.dropWhile_cons] at h
    by_cases ha : p a = true
    · rw [if_pos ha] at h
      exact dropWhile_head_not p t c r h
    · rw [if_neg ha] at h
      rw [List.cons.injEq] at h
      rw [← h.1]
      exact Bool.not_eq_true _ ▸ ha

/-- The first character of a trimmed string is not whitespace. -/
theorem jsTrim_head_not_ws (s : String) (c : Char) (rest : List Char)
    (h : (jsTrim s).data = c :: rest) : jsWhitespace c = false := by
  unfold jsTrim at h
  simp only [String.data] at h
  set l1 := s.data.dropWhile jsWhitespace with hl1
  have hpre : (c :: rest) <+: l1 := by
    rw [← h]
    rw [← List.reverse_suffix]
    simp only [List.reverse_reverse]
    exact List.dropWhile_suffix _
  obtain ⟨t, ht⟩ := hpre
  exact dropWhile_head_not jsWhitespace s.data c (rest ++ t) (by rw [← hl1, ← ht]; rfl)

/-- The last character of a trimmed string is not whitespace. -/
theorem jsTrim_getLast_not_ws (s : String) (c : Char)
    (h : (jsTrim s).data.getLast? = some c) : jsWhitespace c = false := by
  unfold jsTrim at h
  simp only [String.data] at h
  rw [← List.head?_reverse, List.reverse_reverse] at h
  cases he : (s.data.dropWhile jsWhitespace).reverse.dropWhile jsWhitespace with
  | nil => rw [he] at h; simp at h
  | cons c0 r0 =>
    rw [he] at h
    simp only [List.head?_cons, Option.some.injEq] at h
    rw [← h]
    exact dropWhile_head_not jsWhitespace _ c0 r0 he

end Zudoku

namespace Zudoku

set_option maxHeartbeats 1600000 in
/-- A successful string-literal step leaves a suffix, given that the
recursive calls do. -/
theorem jsonStringGoStep_suffix
    (rec : List Char → List Char → Option (String × List Char))
    (hrec : ∀ acc cs s rest, rec acc cs = some (s, rest) → rest <:+ cs) :
    ∀ acc cs s rest, jsonStringGoStep rec acc cs = some (s, rest) → rest <:+ cs := by
  intro acc cs s rest h
  unfold jsonStringGoStep at h
  split at h
  · exact absurd h (by simp)
  · simp only [Option.some.injEq, Prod.mk.injEq] at h
    rw [← h.2]
    exact List.suffix_cons _ _
  · split at h
    · exact (hrec _ _ _ _ h).trans ⟨[_, _], rfl⟩
    · exact (hrec _ _ _ _ h).trans ⟨[_, _], rfl⟩
    · exact (hrec _ _ _ _ h).trans ⟨[_, _], rfl⟩
    · exact (hrec _ _ _ _ h).trans ⟨[_, _], rfl⟩
    · exact (hrec _ _ _ _ h).trans ⟨[_, _], rfl⟩
    · exact (hrec _ _ _ _ h).trans ⟨[_, _], rfl⟩
    · exact (hrec _ _ _ _ h).trans ⟨[_, _], rfl⟩
    · exact (hrec _ _ _ _ h).trans ⟨[_, _], rfl⟩
    · split at h
      · dsimp only at h
        split at h
        · exact (hrec _ _ _ _ h).trans ⟨[_, _, _, _, _, _], rfl⟩
        · split at h
          · split at h
            · split at h
              · try dsimp only at h
                split at h
                · exact (hrec _ _ _ _ h).trans
                    ⟨[_, _, _, _, _, _, _, _, _, _, _, _], rfl⟩
                · exact absurd h (by simp)
              · exact absurd h (by simp)
            · exact absurd h (by simp)
          · exact absurd h (by simp)
      · exact absurd h (by simp)
    · exact absurd h (by simp)
  · split at h
    · exact absurd h (by simp)
    · exact (hrec _ _ _ _ h).trans ⟨[_], rfl⟩

/-- A successful string-literal parse leaves a suffix. -/
theorem jsonStringGo_suffix :
    ∀ (fuel : Nat) (acc cs : List Char) (s : String) (rest : List Char),
      jsonStringGo fuel acc cs = some (s, rest) → rest <:+ cs := by
  intro fuel
  induction fuel with
  | zero =>
    intro acc cs s rest h
    exact absurd h (by simp [jsonStringGo])
  | succ fuel ih =>
    intro acc cs s rest h
    unfold jsonStringGo at h
    exact jsonStringGoStep_suffix _ ih acc cs s rest h

/-- A successful number parse leaves a suffix. -/
theorem jsonParseNumber_suffix (cs : List Char) (n : Int) (rest : List Char)
    (h : jsonParseNumber cs = some (n, rest)) : rest <:+ cs := by
  unfold jsonParseNumber at h
  dsimp only at h
  set X := if cs.head? = some '-' then cs.tail else cs with hX
  have hXs : X <:+ cs := by
    rw [hX]
    split
    · exact List.tail_suffix cs
    · exact List.suffix_refl cs
  split at h
  · exact absurd h (by simp)
  · split at h
    · exact absurd h (by simp)
    · split at h
      · exact absurd h (by simp)
      · exact absurd h (by simp)
      · exact absurd h (by simp)
      · simp only [Option.some.injEq, Prod.mk.injEq] at h
        rw [← h.2]
        exact (List.dropWhile_suffix _).trans hXs

end Zudoku

namespace Zudoku

/-- A successful value-step parse leaves a suffix, and a successful
member-step parse leaves its closing brace and then a suffix. -/
theorem jsonParseValStep_suffix
    (recM : List Char → Option (List (String × JSValue) × List Char))
    (recE : List Char → Option (JSArr × List Char))
    (hm : ∀ cs ms rest, recM cs = some (ms, rest) → rbraceChar :: rest <:+ cs)
    (he : ∀ cs xs rest, recE cs = some (xs, rest) → rest <:+ cs) :
    ∀ cs v rest, jsonParseValStep recM recE cs = some (v, rest) → rest <:+ cs := by
  intro cs v rest h
  unfold jsonParseValStep at h
  split at h
  · exact absurd h (by simp)
  next c rest1 heq =>
    have hsub : c :: rest1 <:+ cs := heq ▸ List.dropWhile_suffix jsonWs
    split at h
    · split at h
      next s r hsg =>
        simp only [Option.some.injEq, Prod.mk.injEq] at h
        rw [← h.2]
        exact ((jsonStringGo_suffix _ _ _ s r hsg).trans (List.suffix_cons _ _)).trans hsub
      · exact absurd h (by simp)
    · split at h
      · split at h
        next c2 r2 heq2 =>
          split at h
          · simp only [Option.some.injEq, Prod.mk.injEq] at h
            rw [← h.2]
            exact (((List.suffix_cons c2 r2).trans
              (heq2 ▸ List.dropWhile_suffix jsonWs)).trans
              (List.suffix_cons c rest1)).trans hsub
          · split at h
            next ms r3 hrm =>
              simp only [Option.some.injEq, Prod.mk.injEq] at h
              rw [← h.2]
              exact (((List.suffix_cons rbraceChar r3).trans (hm rest1 ms r3 hrm)).trans
                (List.suffix_cons c rest1)).trans hsub
            · exact absurd h (by simp)
        · exact absurd h (by simp)
      · split at h
        · split at h
          next r2 heq2 =>
            simp only [Option.some.injEq, Prod.mk.injEq] at h
            rw [← h.2]
            exact (((List.suffix_cons ']' r2).trans
              (heq2 ▸ List.dropWhile_suffix jsonWs)).trans
              (List.suffix_cons c rest1)).trans hsub
          next heq2 =>
            split at h
            next xs r3 hre =>
              simp only [Option.some.injEq, Prod.mk.injEq] at h
              rw [← h.2]
              exact ((he rest1 xs r3 hre).trans (List.suffix_cons c rest1)).trans hsub
            · exact absurd h (by simp)
          · exact absurd h (by simp)
        · split at h
          next r heq3 =>
            simp only [Option.some.injEq, Prod.mk.injEq] at h
            rw [← h.2]
            have hlit : r <:+ c :: rest1 := ⟨['t', 'r', 'u', 'e'], heq3.symm⟩
            exact hlit.trans hsub
          next r heq3 =>
            simp only [Option.some.injEq, Prod.mk.injEq] at h
            rw [← h.2]
            have hlit : r <:+ c :: rest1 := ⟨['f', 'a', 'l', 's', 'e'], heq3.symm⟩
            exact hlit.trans hsub
          next r heq3 =>
            simp only [Option.some.injEq, Prod.mk.injEq] at h
            rw [← h.2]
            have hlit : r <:+ c :: rest1 := ⟨['n', 'u', 'l', 'l'], heq3.symm⟩
            exact hlit.trans hsub
          next cs2 hne1 hne2 hne3 =>
            split at h
            next n0 r hnum =>
              simp only [Option.some.injEq, Prod.mk.injEq] at h
              rw [← h.2]
              exact (jsonParseNumber_suffix _ n0 r hnum).trans hsub
            · exact absurd h (by simp)

end Zudoku

namespace Zudoku

/-- A successful member-step parse consumes through a closing brace:
the brace followed by the remainder is a suffix of the input. -/
theorem jsonParseMembersStep_suffix
    (recV : List Char → Option (JSValue × List Char))
    (recM : List Char → Option (List (String × JSValue) × List Char))
    (hv : ∀ cs v rest, recV cs = some (v, rest) → rest <:+ cs)
    (hm : ∀ cs ms rest, recM cs = some (ms, rest) → rbraceChar :: rest <:+ cs) :
    ∀ cs ms rest, jsonParseMembersStep recV recM cs = some (ms, rest) →
      rbraceChar :: rest <:+ cs := by
  intro cs ms rest h
  unfold jsonParseMembersStep at h
  split at h
  next rest0 heq =>
    have hsub : '"' :: rest0 <:+ cs := heq ▸ List.dropWhile_suffix jsonWs
    have hrest0 : rest0 <:+ cs := (List.suffix_cons _ _).trans hsub
    split at h
    · exact absurd h (by simp)
    next k r1 hsg =>
      have hr1 : r1 <:+ cs := (jsonStringGo_suffix _ _ _ k r1 hsg).trans hrest0
      split at h
      next r2 heq2 =>
        have hr2 : r2 <:+ cs :=
          ((List.suffix_cons ':' r2).trans (heq2 ▸ List.dropWhile_suffix jsonWs)).trans hr1
        split at h
        · exact absurd h (by simp)
        next v r3 hrv =>
          have hr3 : r3 <:+ cs := (hv r2 v r3 hrv).trans hr2
          split at h
          next r4 heq3 =>
            split at h
            next ms0 r5 hrm =>
              simp only [Option.some.injEq, Prod.mk.injEq] at h
              rw [← h.2]
              exact ((hm r4 ms0 r5 hrm).trans
                ((List.suffix_cons ',' r4).trans
                  (heq3 ▸ List.dropWhile_suffix jsonWs))).trans hr3
            · exact absurd h (by simp)
          next c r4 heq3 =>
            split at h
            · simp only [Option.some.injEq, Prod.mk.injEq] at h
              rw [← h.2]
              rename_i hc
              rw [← hc]
              exact (heq3 ▸ List.dropWhile_suffix jsonWs).trans hr3
            · exact absurd h (by simp)
          · exact absurd h (by simp)
      · exact absurd h (by simp)
  · exact absurd h (by simp)

/-- A successful element-step parse leaves a suffix. -/
theorem jsonParseElemsStep_suffix
    (recV : List Char → Option (JSValue × List Char))
    (recE : List Char → Option (JSArr × List Char))
    (hv : ∀ cs v rest, recV cs = some (v, rest) → rest <:+ cs)
    (he : ∀ cs xs rest, recE cs = some (xs, rest) → rest <:+ cs) :
    ∀ cs xs rest, jsonParseElemsStep recV recE cs = some (xs, rest) → rest <:+ cs := by
  intro cs xs rest h
  unfold jsonParseElemsStep at h
  split at h
  · exact absurd h (by simp)
  next v r1 hrv =>
    have hr1 : r1 <:+ cs := hv cs v r1 hrv
    split at h
    next r2 heq2 =>
      have hr2 : r2 <:+ cs :=
        ((List.suffix_cons ',' r2).trans (heq2 ▸ List.dropWhile_suffix jsonWs)).trans hr1
      split at h
      next xs0 r3 hre =>
        simp only [Option.some.injEq, Prod.mk.injEq] at h
        rw [← h.2]
        exact (he r2 xs0 r3 hre).trans hr2
      · exact absurd h (by simp)
    next r2 heq2 =>
      simp only [Option.some.injEq, Prod.mk.injEq] at h
      rw [← h.2]
      exact ((List.suffix_cons ']' r2).trans (heq2 ▸ List.dropWhile_suffix jsonWs)).trans hr1
    · exact absurd h (by simp)

/-- A successful parse leaves a suffix; a successful member parse leaves
the closing brace and then a suffix. -/
theorem jsonParse_suffix : ∀ fuel : Nat,
    (∀ cs v rest, jsonParseVal fuel cs = some (v, rest) → rest <:+ cs) ∧
    (∀ cs ms rest, jsonParseMembers fuel cs = some (ms, rest) →
      rbraceChar :: rest <:+ cs) ∧
    (∀ cs xs rest, jsonParseElems fuel cs = some (xs, rest) → rest <:+ cs) := by
  intro fuel
  induction fuel with
  | zero =>
    refine ⟨?_, ?_, ?_⟩ <;> intro cs a rest h <;>
      exact absurd h (by simp [jsonParseVal, jsonParseMembers, jsonParseElems])
  | succ fuel ih =>
    obtain ⟨ihv, ihm, ihe⟩ := ih
    refine ⟨?_, ?_, ?_⟩
    · intro cs v rest h
      unfold jsonParseVal at h
      exact jsonParseValStep_suffix _ _ ihm ihe cs v rest h
    · intro cs ms rest h
      unfold jsonParseMembers at h
      exact jsonParseMembersStep_suffix _ _ ihv ihm cs ms rest h
    · intro cs xs rest h
      unfold jsonParseElems at h
      exact jsonParseElemsStep_suffix _ _ ihv ihe cs xs rest h

end Zudoku

namespace Zudoku

/-- A value-step parse that yields an object began at an opening brace
and consumed through a closing brace. -/
theorem jsonParseValStep_obj
    (recM : List Char → Option (List (String × JSValue) × List Char))
    (recE : List Char → Option (JSArr × List Char))
    (hm : ∀ cs ms rest, recM cs = some (ms, rest) → rbraceChar :: rest <:+ cs) :
    ∀ cs fs rest, jsonParseValStep recM recE cs = some (.obj fs, rest) →
      (∃ r1, cs.dropWhile jsonWs = lbraceChar :: r1) ∧ rbraceChar :: rest <:+ cs := by
  intro cs fs rest h
  unfold jsonParseValStep at h
  split at h
  · exact absurd h (by simp)
  next c rest1 heq =>
    have hsub : c :: rest1 <:+ cs := heq ▸ List.dropWhile_suffix jsonWs
    split at h
    · split at h
      · simp at h
      · exact absurd h (by simp)
    · split at h
      next hc =>
        refine ⟨⟨rest1, by rw [heq, hc]⟩, ?_⟩
        split at h
        next c2 r2 heq2 =>
          split at h
          next hc2 =>
            simp only [Option.some.injEq, Prod.mk.injEq] at h
            rw [← h.2, ← hc2]
            exact ((heq2 ▸ List.dropWhile_suffix jsonWs).trans
              (List.suffix_cons c rest1)).trans hsub
          · split at h
            next ms r3 hrm =>
              simp only [Option.some.injEq, Prod.mk.injEq] at h
              rw [← h.2]
              exact ((hm rest1 ms r3 hrm).trans (List.suffix_cons c rest1)).trans hsub
            · exact absurd h (by simp)
        · exact absurd h (by simp)
      · split at h
        · split at h
          next r2 heq2 => simp at h
          next heq2 =>
            split at h
            next xs r3 hre => simp at h
            · exact absurd h (by simp)
          · exact absurd h (by simp)
        · split at h
          next r heq3 => simp at h
          next r heq3 => simp at h
          next r heq3 => simp at h
          next cs2 hne1 hne2 hne3 =>
            split at h
            next n0 r hnum => simp at h
            · exact absurd h (by simp)

/-- A complete `JSON.parse` of a whitespace-trimmed text that yields an
object: the text is nonempty, starts with `\x7b` and ends with `\x7d` —
so `tryParseJsonObject`'s brace guards never reject it. -/
theorem jsonParse_obj_braces (s : String) (fs : JSObj)
    (hhead : ∀ c rest, s.data = c :: rest → jsWhitespace c = false)
    (hlast : ∀ c, s.data.getLast? = some c → jsWhitespace c = false)
    (h : jsonParse s = some (.obj fs)) :
    s.data ≠ [] ∧ jsStartsWith s lbraceStr = true ∧ jsEndsWith s rbraceStr = true := by
  unfold jsonParse at h
  obtain ⟨f, hf⟩ : ∃ f, 4 * (s.length + 1) = f + 1 := ⟨4 * s.length + 3, by ring⟩
  rw [hf] at h
  split at h
  next v rest0 hpv =>
    unfold jsonParseVal at hpv
    split at h
    next hempty =>
      simp only [Option.some.injEq] at h
      rw [h] at hpv
      obtain ⟨⟨r1, hdw⟩, hbr⟩ :=
        jsonParseValStep_obj _ _ (jsonParse_suffix f).2.1 s.data fs rest0 hpv
      cases hsd : s.data with
      | nil =>
        rw [hsd] at hdw
        simp at hdw
      | cons c0 t0 =>
        have hws : jsWhitespace c0 = false := hhead c0 t0 hsd
        have hjw : jsonWs c0 = false := by
          cases hjw : jsonWs c0
          · rfl
          · rw [jsonWs_isWhitespace c0 hjw] at hws
            exact absurd hws (by simp)
        rw [hsd, List.dropWhile_cons, if_neg (by simp [hjw])] at hdw
        rw [List.cons.injEq] at hdw
        have hrest0 : rest0 = [] := by
          cases hr0 : rest0 with
          | nil => rfl
          | cons x xs =>
            exfalso
            have hne : rest0 ≠ [] := by rw [hr0]; simp
            obtain ⟨cl, hcl⟩ :=
              Option.isSome_iff_exists.mp (List.getLast?_isSome.mpr hne)
            have hclws : jsonWs cl = true := by
              have hall := List.dropWhile_eq_nil_iff.mp
                (List.isEmpty_iff.mp hempty)
              exact hall cl (List.mem_of_mem_getLast? hcl)
            have hsfx : rest0 <:+ s.data :=
              (List.suffix_cons rbraceChar rest0).trans hbr
            obtain ⟨pre, hpre⟩ := hsfx
            have : s.data.getLast? = some cl := by
              rw [← hpre, List.getLast?_append, hcl]
              rfl
            have hcontr := hlast cl this
            rw [jsonWs_isWhitespace cl hclws] at hcontr
            exact absurd hcontr (by simp)
        refine ⟨by simp [hsd], ?_, ?_⟩
        · unfold jsStartsWith
          rw [hsd]
          have hlb : lbraceStr.data = [lbraceChar] := rfl
          rw [hlb, hdw.1]
          simp [List.isPrefixOf]
        · unfold jsEndsWith
          rw [hrest0] at hbr
          exact List.isSuffixOf_iff_suffix.mpr hbr
    · exact absurd h (by simp)
  · exact absurd h (by simp)

end Zudoku

namespace Zudoku

/-- `tryParseJsonObject` is exactly "the trimmed text `JSON.parse`s to an
object": its emptiness and brace guards reject nothing that parses. -/
theorem tryParseJsonObject_eq (text : String) :
    tryParseJsonObject text =
      (match jsonParse (jsTrim text) with
       | some (.obj fs) => some fs.toList
       | _ => none) := by
  unfold tryParseJsonObject
  dsimp only
  by_cases ht : jsTrim text = ""
  · rw [if_pos ht, ht]
    have h0 : jsonParse "" = none := rfl
    rw [h0]
  · rw [if_neg ht]
    by_cases hg : jsStartsWith (jsTrim text) lbraceStr = true ∧
        jsEndsWith (jsTrim text) rbraceStr = true
    · rw [if_neg (not_not_intro hg)]
    · rw [if_pos hg]
      cases hjp : jsonParse (jsTrim text) with
      | none => rfl
      | some v =>
        cases v with
        | obj fs =>
          exfalso
          have hb := jsonParse_obj_braces (jsTrim text) fs
            (fun c rest h => jsTrim_head_not_ws text c rest h)
            (fun c h => jsTrim_getLast_not_ws text c h)
            hjp
          exact hg ⟨hb.2.1, hb.2.2⟩
        | undefined => rfl
        | null => rfl
        | bool b => rfl
        | num n => rfl
        | str s => rfl
        | arr xs => rfl

/-- The body component the signing block computes is the spec's body
component. -/
theorem signBodyParamsString_eq_spec (form : PlaygroundForm) :
    signBodyParamsString form = specBodyComponent form := by
  unfold signBodyParamsString signBodyParams specBodyComponent
  cases hbm : form.bodyMode with
  | none => rfl
  | some mode =>
    cases mode with
    | file => rfl
    | multipart => rfl
    | text =>
      rw [if_pos rfl, tryParseJsonObject_eq]
      cases hjp : jsonParse (jsTrim form.body) with
      | none => rfl
      | some v =>
        cases v with
        | obj fs => rfl
        | undefined => rfl
        | null => rfl
        | bool b => rfl
        | num n => rfl
        | str s => rfl
        | arr xs => rfl

/-! ## Claim C7 — body contribution to the signature -/

/-- **C7** — the body contributes to the signed payload exactly when the
body mode is `text` and the trimmed body text parses as a JSON object
(not an array, not a primitive): then its top-level fields are
serialized with the same `key=percent-encoded-value` joiner as the query
component; in every other case (other modes, empty body, non-object
JSON, unparseable text) the body component is empty and the signed
string is the query component alone (empty components are dropped from
the `&`-join). -/
theorem claim_C7 (form : PlaygroundForm) (ts : String) :
    signBodyParamsString form = specBodyComponent form ∧
    signToSign ts form = String.intercalate "&"
      (([signQueryParamsString (upsertActiveParam form.queryParams "timestamp" ts),
        specBodyComponent form]).filter (fun s => s ≠ "")) := by
  refine ⟨signBodyParamsString_eq_spec form, ?_⟩
  unfold signToSign
  rw [signBodyParamsString_eq_spec form]

end Zudoku

namespace Zudoku

/-! ## Claim C1 — signature canonicalization -/

set_option maxRecDepth 4000 in
/-- **C1 counterexample** — the fresh `timestamp` is *not* appended last
when a `timestamp` query param already exists: the upsert replaces it in
place, so with params `[timestamp=0, a=1]` the code signs
`timestamp=999&a=1` while the claim's canonical string is
`timestamp=0&a=1&timestamp=999`; the resulting HMACs differ. Both
signing preconditions hold at this input. -/
theorem claim_C1_counterexample :
    jsTrim ((some "s3cr3t" : Option String).getD "") ≠ "" ∧
    getHeaderValue [⟨"X-MBX-APIKEY", "key", true, []⟩] "X-MBX-APIKEY" ≠ "" ∧
    ((signSubmission "X-MBX-APIKEY" "999"
        ⟨some "s3cr3t", "", some .text, false,
          [⟨"timestamp", "0", true, []⟩, ⟨"a", "1", true, []⟩],
          [⟨"X-MBX-APIKEY", "key", true, []⟩]⟩).toOption.map SignOutcome.signature) ≠
      some (hmacSha256Hex "s3cr3t" (specCanonicalC1 "999"
        ⟨some "s3cr3t", "", some .text, false,
          [⟨"timestamp", "0", true, []⟩, ⟨"a", "1", true, []⟩],
          [⟨"X-MBX-APIKEY", "key", true, []⟩]⟩)) := by
  refine ⟨by decide, by decide, by decide⟩

/-- **C1 (amended)** — for every signed submission passing both
preconditions, the injected signature is the hex HMAC-SHA256 (keyed by
the UTF-8 trimmed API secret) of the canonical string built from the
query params *after* the `timestamp` upsert (the fresh timestamp
replaces an existing `timestamp` entry in place, else is appended last),
excluding `signature` entries, serialized per the JS-object record
semantics of amended C5, joined with the body component by `&` with
empty components omitted. -/
theorem claim_C1_amended (apiKeyHeaderName ts : String) (form : PlaygroundForm)
    (hsecret : jsTrim (form.apiSecret.getD "") ≠ "")
    (hkey : getHeaderValue form.headers apiKeyHeaderName ≠ "") :
    ∃ out, signSubmission apiKeyHeaderName ts form = .ok out ∧
      out.toSign = specCanonicalC1Amended ts form ∧
      out.signature =
        hmacSha256Hex (jsTrim (form.apiSecret.getD ""))
          (specCanonicalC1Amended ts form) := by
  have htoSign : signToSign ts form = specCanonicalC1Amended ts form := by
    unfold signToSign specCanonicalC1Amended
    dsimp only
    rw [signBodyParamsString_eq_spec form]
    have hq : signQueryParamsString (upsertActiveParam form.queryParams "timestamp" ts) =
        specC5Amended (((upsertActiveParam form.queryParams "timestamp" ts).filter
          (fun p => p.name ≠ "signature")).map Param.toActivePair) := by
      unfold signQueryParamsString
      exact buildQueryString_toRecord _
    rw [hq]
  refine ⟨⟨upsertActiveParam (upsertActiveParam form.queryParams "timestamp" ts)
      "signature" (hmacSha256Hex (jsTrim (form.apiSecret.getD "")) (signToSign ts form)),
    signToSign ts form,
    hmacSha256Hex (jsTrim (form.apiSecret.getD "")) (signToSign ts form)⟩, ?_, htoSign,
    by rw [htoSign]⟩
  simp only [signSubmission]
  rw [if_neg hsecret, if_neg hkey]

/-- Witness for C1 (amended): a standard signed submission with one
active query param. -/
theorem claim_C1_amended_witness :
    jsTrim ((some "s3cr3t" : Option String).getD "") ≠ "" ∧
    getHeaderValue [⟨"X-MBX-APIKEY", "key", true, []⟩] "X-MBX-APIKEY" ≠ "" ∧
    ((signSubmission "X-MBX-APIKEY" "1700000000000"
        ⟨some "s3cr3t", "", some .text, false,
          [⟨"symbol", "BTCUSDT", true, []⟩],
          [⟨"X-MBX-APIKEY", "key", true, []⟩]⟩).toOption.map SignOutcome.toSign) =
      some (specCanonicalC1Amended "1700000000000"
        ⟨some "s3cr3t", "", some .text, false,
          [⟨"symbol", "BTCUSDT", true, []⟩],
          [⟨"X-MBX-APIKEY", "key", true, []⟩]⟩) := by
  refine ⟨by decide, by decide, ?_⟩
  obtain ⟨out, h1, h2, h3⟩ := claim_C1_amended "X-MBX-APIKEY" "1700000000000"
    ⟨some "s3cr3t", "", some .text, false,
      [⟨"symbol", "BTCUSDT", true, []⟩],
      [⟨"X-MBX-APIKEY", "key", true, []⟩]⟩ (by decide) (by decide)
  rw [h1]
  show some out.toSign = _
  rw [h2]

end Zudoku
